import Mathlib

/-!
Verification of the cbgt control-plane library: a shallow embedding of the
planner, version gate, manager persistence, rebalancer move expansion,
monitor error handling and covering selector, with theorems checking the
natural-language specification against the code.

Go machine integers are modelled as `Nat`/`Int` with explicit wrap-around
(`% 2^w`) where overflow matters; fallible operations return explicit
result pairs; stateful code is embedded by explicit state passing.
-/

namespace Cbgt

/-! ## Rebalancer move expansion (rebalance.go, `createPindexesMoves`) -/

/-- A `(state, op)` step of a partition move, mirroring `StateOp`. -/
structure StateOp where
  State : String
  Op : String
deriving DecidableEq, Repr

/-- One pindex's planned sequence of move steps, mirroring `pindexMoves`. -/
structure PindexMoves where
  name : String
  stateOps : List StateOp
deriving DecidableEq, Repr, Inhabited

/-- Expansion of a single incoming `(state, op)` pair into its step list,
the body of the per-pindex loop of `Rebalancer.createPindexesMoves`. -/
def createPindexMovesOne (addPrimaryDirectly : Bool)
    (name state op : String) : PindexMoves :=
  if !addPrimaryDirectly && state = "primary" && op = "add" then
    { name := name
      stateOps := [⟨"replica", "add"⟩, ⟨"primary", "promote"⟩] }
  else if state = "primary" && op = "promote" then
    { name := name
      stateOps := [⟨"replica", "promote"⟩, ⟨"primary", "promote"⟩] }
  else
    { name := name, stateOps := [⟨state, op⟩] }

/-- Function `Rebalancer.createPindexesMoves`: expand each incoming
`(pindex, state, op)` triple. The Go code walks indices `0 ≤ i < len(pindexes)`
over the three parallel slices. -/
def createPindexesMoves (addPrimaryDirectly : Bool)
    (pindexes states ops : List String) : List PindexMoves :=
  (List.range pindexes.length).map fun i =>
    createPindexMovesOne addPrimaryDirectly
      (pindexes.getD i "") (states.getD i "") (ops.getD i "")

/-! ## crc32 (IEEE), hex formatting and `PlanPIndexName` (planner.go) -/

/-- Bytes of a string as written by Go's `io.WriteString` (UTF-8); the
strings fed to the hashes here are ASCII, where the code point is the
byte. -/
def stringBytes (s : String) : List Nat :=
  s.data.map Char.toNat

/-- One step of the reflected CRC-32 bit loop with the IEEE polynomial
(0xEDB88320, the reversed form used by Go's `hash/crc32` IEEE table). -/
def crc32Bit (r : Nat) : Nat :=
  if r % 2 = 1 then Nat.xor (r / 2) 0xEDB88320 else r / 2

/-- Fold one input byte into the running CRC-32 value. -/
def crc32Byte (crc b : Nat) : Nat :=
  (List.range 8).foldl (fun r _ => crc32Bit r) (Nat.xor crc (b % 256))

/-- IEEE CRC-32 of a byte sequence, as computed by Go's
`crc32.NewIEEE(); io.WriteString(h, s); h.Sum32()`. -/
def crc32 (bytes : List Nat) : Nat :=
  Nat.xor (bytes.foldl crc32Byte 0xFFFFFFFF) 0xFFFFFFFF

/-- Lowercase hex digit for a value below 16. -/
def hexDigit (n : Nat) : Char :=
  if n < 10 then Char.ofNat (48 + n) else Char.ofNat (87 + n)

/-- Go's `fmt.Sprintf("%08x", v)` for `v < 2^32`: exactly eight lowercase
hex digits, zero padded. -/
def hex8 (n : Nat) : String :=
  String.mk ((List.range 8).map fun i => hexDigit (n / 16 ^ (7 - i) % 16))

/-- The plan parameters used by the planner, `PlanParams` (Go `int`
modelled as `Int`). -/
structure PlanParams where
  MaxPartitionsPerPIndex : Int := 0
deriving DecidableEq, Repr, Inhabited

/-- The fields of `IndexDef` the planner touches. -/
structure IndexDef where
  Name : String := ""
  UUID : String := ""
  «Type» : String := ""
  Params : String := ""
  SourceType : String := ""
  SourceName : String := ""
  SourceUUID : String := ""
  SourceParams : String := ""
  PlanParams : PlanParams := {}
deriving DecidableEq, Repr, Inhabited

/-- Function `PlanPIndexName(indexDef, sourcePartitions)`: name + "_" + uuid + "_"
+ `%08x` of the IEEE crc32 of the source-partitions string. -/
def PlanPIndexName (indexDef : IndexDef) (sourcePartitions : String) : String :=
  indexDef.Name ++ "_" ++ indexDef.UUID ++ "_"
    ++ hex8 (crc32 (stringBytes sourcePartitions))

/-! ## `SplitIndexDefIntoPlanPIndexes` (planner.go) -/

/-- One node's role in a plan partition, `PlanPIndexNode`. -/
structure PlanPIndexNode where
  CanRead : Bool := false
  CanWrite : Bool := false
  Priority : Int := 0
deriving DecidableEq, Repr, Inhabited

/-- An assigned plan partition, `PlanPIndex`.  The Go `Nodes` map (keyed
by node UUID) is modelled as an association list. -/
structure PlanPIndex where
  Name : String := ""
  UUID : String := ""
  IndexType : String := ""
  IndexName : String := ""
  IndexUUID : String := ""
  IndexParams : String := ""
  SourceType : String := ""
  SourceName : String := ""
  SourceUUID : String := ""
  SourceParams : String := ""
  SourcePartitions : String := ""
  Nodes : List (String × PlanPIndexNode) := []
deriving DecidableEq, Repr, Inhabited

/-- Go map assignment `m[k] = v` on an association-list model: overwrite
the existing entry for `k`, else append a new one. -/
def mapAssign {α : Type} (m : List (String × α)) (k : String) (v : α) :
    List (String × α) :=
  if m.any (fun p => p.1 = k) then
    m.map (fun p => if p.1 = k then (k, v) else p)
  else m ++ [(k, v)]

/-- The `addPlanPIndex` closure inside `SplitIndexDefIntoPlanPIndexes`:
join the chunk with commas, build the `PlanPIndex` and store it in the
accumulating map under its (crc32-derived) name.  `NewUUID()` (an
external random source) is modelled by a generator indexed by how many
UUIDs were drawn so far. -/
def addPlanPIndex (indexDef : IndexDef) (newUUID : Nat → String)
    (st : List (String × PlanPIndex) × Nat) (chunk : List String) :
    List (String × PlanPIndex) × Nat :=
  let sourcePartitions := String.intercalate "," chunk
  let planPIndex : PlanPIndex :=
    { Name := PlanPIndexName indexDef sourcePartitions
      UUID := newUUID st.2
      IndexType := indexDef.«Type»
      IndexName := indexDef.Name
      IndexUUID := indexDef.UUID
      IndexParams := indexDef.Params
      SourceType := indexDef.SourceType
      SourceName := indexDef.SourceName
      SourceUUID := indexDef.SourceUUID
      SourceParams := indexDef.SourceParams
      SourcePartitions := sourcePartitions
      Nodes := [] }
  (mapAssign st.1 planPIndex.Name planPIndex, st.2 + 1)

/-- Function `SplitIndexDefIntoPlanPIndexes`, parameterized by the result of
`dataSourcePartitions` (an external feed callback): walk the source
partitions accumulating a current chunk; whenever
`MaxPartitionsPerPIndex > 0` and the chunk reaches that size, emit a
`PlanPIndex`; afterwards emit any leftover chunk, or an empty one if no
`PlanPIndex` was produced at all. -/
def splitStep (indexDef : IndexDef) (newUUID : Nat → String)
    (st : (List (String × PlanPIndex) × Nat) × List String) (sp : String) :
    (List (String × PlanPIndex) × Nat) × List String :=
  let maxP := indexDef.PlanParams.MaxPartitionsPerPIndex
  let curr := st.2 ++ [sp]
  if maxP > 0 ∧ (curr.length : Int) ≥ maxP then
    (addPlanPIndex indexDef newUUID st.1 curr, [])
  else (st.1, curr)

def splitIndexDefIntoPlanPIndexes (indexDef : IndexDef)
    (sourcePartitionsArr : List String) (newUUID : Nat → String) :
    List (String × PlanPIndex) :=
  let r := sourcePartitionsArr.foldl (splitStep indexDef newUUID) (([], 0), [])
  if r.2.length > 0 ∨ r.1.1.length = 0 then
    (addPlanPIndex indexDef newUUID r.1 r.2).1
  else r.1.1

/-- Chunks emitted during the main loop of the split, starting from a
partial chunk `curr`: every emitted chunk reaches size `m` exactly. -/
def emitChunks (m : Nat) (curr : List String) : List String → List (List String)
  | [] => []
  | sp :: rest =>
      if curr.length + 1 ≥ m then (curr ++ [sp]) :: emitChunks m [] rest
      else emitChunks m (curr ++ [sp]) rest

/-- The partial chunk left over after the main loop of the split. -/
def leftoverChunk (m : Nat) (curr : List String) : List String → List String
  | [] => curr
  | sp :: rest =>
      if curr.length + 1 ≥ m then leftoverChunk m [] rest
      else leftoverChunk m (curr ++ [sp]) rest

/-- The full chunk sequence the split hands to `addPlanPIndex`: the
emitted full chunks, then the leftover when non-empty, or a single empty
chunk when nothing was produced. -/
def splitChunks (m : Nat) (arr : List String) : List (List String) :=
  let e := emitChunks m [] arr
  let l := leftoverChunk m [] arr
  if l.length > 0 ∨ e.length = 0 then e ++ [l] else e

/-- The `PlanPIndex` built by `addPlanPIndex` for chunk `c` when `k`
UUIDs were drawn before it. -/
def mkSplitPlanPIndex (indexDef : IndexDef) (newUUID : Nat → String)
    (k : Nat) (c : List String) : PlanPIndex :=
  { Name := PlanPIndexName indexDef (String.intercalate "," c)
    UUID := newUUID k
    IndexType := indexDef.«Type»
    IndexName := indexDef.Name
    IndexUUID := indexDef.UUID
    IndexParams := indexDef.Params
    SourceType := indexDef.SourceType
    SourceName := indexDef.SourceName
    SourceUUID := indexDef.SourceUUID
    SourceParams := indexDef.SourceParams
    SourcePartitions := String.intercalate "," c
    Nodes := [] }

/-! ## The `retry` helper (version.go) -/

/-- Helper `retry(attempts, f)`: calls `f`; on error, recurses with `attempts-1`
but DISCARDS the recursive result (only its side effects happen), and
returns the named return values from the first invocation.  `f` is
modelled as a state-passing function so repeated invocations can differ. -/
def retry {σ : Type} : Nat → (σ → (Nat × Option String) × σ) → σ →
    (Nat × Option String) × σ
  | 0, f, s => f s
  | a + 1, f, s =>
      let r := f s
      if r.1.2 = none then r
      else (r.1, (retry a f r.2).2)

/-! ## Cfg model and `checkVersion` (version.go) -/

/-- One live node's advertised identity, `NodeDef`. -/
structure NodeDef where
  HostPort : String := ""
  UUID : String := ""
  ImplVersion : String := ""
  Tags : List String := []
  Container : String := ""
  Weight : Int := 0
  Extras : String := ""
deriving DecidableEq, Repr, Inhabited

/-- The `NodeDefs` aggregate stored under a node-defs Cfg key; the Go
map keyed by node UUID is an association list. -/
structure NodeDefs where
  UUID : String := ""
  ImplVersion : String := ""
  NodeDefs : List (String × NodeDef) := []
deriving DecidableEq, Repr, Inhabited

/-- A value stored in the Cfg.  Go stores raw JSON bytes; the
serialization layer (`encoding/json`, external to this repository) is
abstracted by storing the already-structured document, so a type
mismatch models an unmarshal failure. -/
inductive CfgVal where
  | str (s : String)
  | nodeDefs (nd : NodeDefs)
deriving DecidableEq, Repr

/-- Go's `string(bytes)` on a Cfg value read as a raw string. -/
def cfgValStr : CfgVal → String
  | .str s => s
  | .nodeDefs _ => ""

/-- The distinguished Cfg error kinds: `CfgCASError` versus any other
transport error. -/
inductive CfgErr where
  | casMismatch
  | other (msg : String)
deriving DecidableEq, Repr

def cfgErrMsg : CfgErr → String
  | .casMismatch => "CAS mismatch"
  | .other m => m

/-- Modelled from the spec (§4.1): the abstract Cfg CAS contract.  `Cfg`
itself is an interface whose implementations are outside the provided
source files.  `get key cas` returns the value and its cas (cas `0`
means "any version"); `set key val cas` fails with the distinguished
CAS error when `cas` differs from the stored cas.  The optional
`clusterVersion` field models the `VersionReader` type assertion in
`VerifyEffectiveClusterVersion` (an external "cluster compatibility"
oracle). -/
structure CfgM (σ : Type) where
  get : String → Nat → σ → (Except CfgErr (Option CfgVal × Nat)) × σ
  set : String → CfgVal → Nat → σ → (Except CfgErr Nat) × σ
  clusterVersion : Option (σ → (Nat × Option String) × σ) := none

def versionKey : String := "version"

def NODE_DEFS_KNOWN : String := "known"
def NODE_DEFS_WANTED : String := "wanted"

/-- Modelled from the spec (§6): `CfgNodeDefsKey` (defined outside the
provided source files) maps a node-defs kind to its stable Cfg key
`nodeDefs-known` / `nodeDefs-wanted`. -/
def CfgNodeDefsKey (kind : String) : String := "nodeDefs-" ++ kind

/-- Modelled from the spec (§4.2): `VersionGTE` (defined outside the
provided source files; the spec describes it as semver comparison):
compare dot-separated numeric components left to right; a missing
component makes the shorter version the smaller one. -/
def versionGTEList : List Nat → List Nat → Bool
  | _, [] => true
  | [], _ :: _ => false
  | x :: xs, y :: ys =>
      if x > y then true else if x < y then false else versionGTEList xs ys

/-- Split a character list on a separator (structural version of Go's
`strings.Split`). -/
def splitParts (sep : Char) : List Char → List (List Char)
  | [] => [[]]
  | c :: rest =>
      if c = sep then [] :: splitParts sep rest
      else match splitParts sep rest with
        | [] => [[c]]
        | h :: t => (c :: h) :: t

def charDigit? (c : Char) : Option Nat :=
  if '0' ≤ c ∧ c ≤ '9' then some (c.toNat - 48) else none

/-- Parse a decimal numeral (structural version of `strconv.Atoi` for
the non-negative numerals version strings contain). -/
def digitsToNat? (l : List Char) : Option Nat :=
  if l.isEmpty then none
  else l.foldl (fun acc c =>
    match acc, charDigit? c with
    | some a, some d => some (a * 10 + d)
    | _, _ => none) (some 0)

def versionParts (s : String) : List Nat :=
  (splitParts '.' s.data).map (fun t => (digitsToNat? t).getD 0)

def VersionGTE (x y : String) : Bool :=
  versionGTEList (versionParts x) (versionParts y)

def CfgAppVersion : String := "6.5.0"

/-- Function `CompatibilityVersion(maj.min...) = maj*65536 + min` (util.go);
returns the error version `1` with an error on a malformed string. -/
def CompatibilityVersion (version : String) : Nat × Option String :=
  let xa := splitParts '.' version.data
  if xa.length < 2 then (1, some "invalid version")
  else
    match digitsToNat? (xa.getD 0 []), digitsToNat? (xa.getD 1 []) with
    | some majVersion, some minVersion => (65536 * majVersion + minVersion, none)
    | none, _ => (1, some "invalid major")
    | some _, none => (1, some "invalid minor")

/-- The per-kind node-defs scan of `VerifyEffectiveClusterVersion`: a
missing value is skipped; a wrong-shaped value is an unmarshal error;
otherwise report `false` when any stored node has an `ImplVersion`
strictly below `myVersion`. -/
def checkNodeDefsVal (myVersion : String) : Option CfgVal → Except String Bool
  | none => .ok true
  | some (.str _) => .error "json unmarshal error"
  | some (.nodeDefs nd) =>
      if nd.NodeDefs.any (fun p =>
          myVersion ≠ p.2.ImplVersion ∧ VersionGTE myVersion p.2.ImplVersion)
      then .ok false else .ok true

/-- One iteration of the `NODEDEFS_CHECKS` loop of
`VerifyEffectiveClusterVersion`: read one node-defs kind and scan it. -/
def nodedefsCheckKind {σ : Type} (c : CfgM σ) (myVersion kind : String)
    (s : σ) : (Except String Bool) × σ :=
  match c.get (CfgNodeDefsKey kind) 0 s with
  | (.error e, s') => (.error (cfgErrMsg e), s')
  | (.ok (v, _), s') => (checkNodeDefsVal myVersion v, s')

/-- The `NODEDEFS_CHECKS` fallback of `VerifyEffectiveClusterVersion`:
walk `known` then `wanted` node defs (the Go `for` over the two kinds,
unrolled), returning `false` on the first node whose version is strictly
lower than `myVersion`. -/
def nodedefsChecks {σ : Type} (c : CfgM σ) (myVersion : String) (s : σ) :
    (Except String Bool) × σ :=
  match nodedefsCheckKind c myVersion NODE_DEFS_KNOWN s with
  | (.error e, s') => (.error e, s')
  | (.ok false, s') => (.ok false, s')
  | (.ok true, s') => nodedefsCheckKind c myVersion NODE_DEFS_WANTED s'

/-- Function `VerifyEffectiveClusterVersion`: prefer the external cluster
compatibility oracle (via `retry 3`); compare it against
`CompatibilityVersion(CfgAppVersion)`; on any oracle failure fall back
to the node-defs checks. -/
def VerifyEffectiveClusterVersion {σ : Type} (c : CfgM σ)
    (myVersion : String) (s : σ) : (Except String Bool) × σ :=
  match c.clusterVersion with
  | some rsc =>
      match retry 3 rsc s with
      | ((_, some _), s') => nodedefsChecks c myVersion s'
      | ((ccVersion, none), s') =>
          let (appVersion, aerr) := CompatibilityVersion CfgAppVersion
          if appVersion ≠ ccVersion then (.ok false, s')
          else if aerr.isSome then nodedefsChecks c myVersion s'
          else (.ok true, s')
  | none => nodedefsChecks c myVersion s

/-- The body of `checkVersion`'s retry loop.  The Go loop increments a
`tries` counter and gives up with an error after 100 body iterations;
the remaining allowance is the `fuel` argument. -/
def checkVersionLoop {σ : Type} (c : CfgM σ) (myVersion : String) :
    Nat → σ → (Bool × Option String) × σ
  | 0, s => ((false, some "version: checkVersion too many tries"), s)
  | fuel + 1, s =>
      match c.get versionKey 0 s with
      | (.error e, s') => ((false, some (cfgErrMsg e)), s')
      | (.ok (none, cas), s') =>
          match c.set versionKey (.str myVersion) cas s' with
          | (.error .casMismatch, s'') => checkVersionLoop c myVersion fuel s''
          | (.error (.other m), s'') =>
              ((false, some ("version: could not save Version to cfg, err: "
                ++ m)), s'')
          | (.ok _, s'') => checkVersionLoop c myVersion fuel s''
      | (.ok (some v, cas), s') =>
          let stored := cfgValStr v
          if VersionGTE myVersion stored = false then ((false, none), s')
          else if myVersion ≠ stored then
            match VerifyEffectiveClusterVersion c myVersion s' with
            | (.error e, s'') => ((false, some e), s'')
            | (.ok false, s'') => ((true, none), s'')
            | (.ok true, s'') =>
                match c.set versionKey (.str myVersion) cas s'' with
                | (.error .casMismatch, s3) => checkVersionLoop c myVersion fuel s3
                | (.error (.other m), s3) =>
                    ((false, some ("version: could not update Version in cfg,"
                      ++ " err: " ++ m)), s3)
                | (.ok _, s3) => checkVersionLoop c myVersion fuel s3
          else ((true, none), s')

/-- Function `checkVersion(cfg, myVersion)`: run the loop with its 100-try cap. -/
def checkVersion {σ : Type} (c : CfgM σ) (myVersion : String) (s : σ) :
    (Bool × Option String) × σ :=
  checkVersionLoop c myVersion 100 s

/-- A simple in-memory Cfg state: association list of key to
(value, cas), a cas allocator, and a counter of successful `set`
calls (used to count Cfg writes). -/
structure SimpleCfgState where
  entries : List (String × (CfgVal × Nat)) := []
  nextCas : Nat := 1
  setCount : Nat := 0
deriving DecidableEq, Repr, Inhabited

def simpleCfgLookup (s : SimpleCfgState) (k : String) : Option (CfgVal × Nat) :=
  (s.entries.find? (fun p => p.1 = k)).map Prod.snd

/-- Modelled from the spec (§4.1): a single-writer in-memory Cfg obeying
the CAS contract; a missing key has cas `0`. -/
def simpleCfg : CfgM SimpleCfgState where
  get k _ s :=
    match simpleCfgLookup s k with
    | none => (.ok (none, 0), s)
    | some (v, c) => (.ok (some v, c), s)
  set k v cas s :=
    let cur := match simpleCfgLookup s k with
      | none => 0
      | some (_, c) => c
    if cas = cur then
      (.ok s.nextCas,
        { entries := mapAssign s.entries k (v, s.nextCas)
          nextCas := s.nextCas + 1
          setCount := s.setCount + 1 })
    else (.error .casMismatch, s)

/-- The version string currently stored in a simple Cfg. -/
def storedVersion (s : SimpleCfgState) : Option String :=
  match simpleCfgLookup s versionKey with
  | some (.str v, _) => some v
  | _ => none

/-- A Cfg on which every `set` yields a CAS conflict and every `get`
finds nothing; its state counts the `get` calls, i.e. the started loop
iterations. -/
def alwaysConflictCfg : CfgM Nat where
  get _ _ n := (.ok (none, 0), n + 1)
  set _ _ _ n := (.error .casMismatch, n)

/-! ## Rebalancer monitor (`runMonitor`, rebalance.go) -/

/-- Per-(pindex, source partition, node) progress marker `UUIDSeq`
(`Seq` is a Go `uint64`; no arithmetic is done on it here). -/
structure UUIDSeq where
  UUID : String := ""
  Seq : Nat := 0
deriving DecidableEq, Repr, Inhabited

/-- The default `StatsSampleErrorThreshold` (a Go `uint8`). -/
def StatsSampleErrorThreshold : Nat := 3

def statsSampleKind : String := "/api/stats?partitions=true"

/-- The payload of a monitor sample.  Go carries raw JSON bytes; the
`encoding/json` layer (external) is abstracted: `noData` is a `nil`
body (which `json.Unmarshal` rejects), `bad` is a body that fails to
unmarshal, `stats` is a decoded `pindexes` document mapping pindex to
source partition to `{uuid, seq}`. -/
inductive MonitorData where
  | noData
  | bad
  | stats (pindexes : List (String × List (String × UUIDSeq)))
deriving DecidableEq, Repr

/-- The fields of `monitor.MonitorSample` that `runMonitor` consumes. -/
structure MonitorSample where
  Kind : String
  UUID : String
  Error : Option String
  Data : MonitorData
deriving DecidableEq, Repr

/-- What `runMonitor` can do in reaction to one sample: push an error
`RebalanceProgress` event on the progress channel, or call `Stop()`. -/
inductive MonitorAction where
  | progressError (e : String)
  | stop
deriving DecidableEq, Repr

/-- The rebalancer state `runMonitor` touches: the per-node consecutive
error counters (`errMap`, Go `map[string]uint8`) and the observed
sequence numbers (`currSeqs`). -/
structure MonitorState where
  errMap : List (String × Nat) := []
  currSeqs : List (String × List (String × List (String × UUIDSeq))) := []
deriving DecidableEq, Repr, Inhabited

def lookupCount (m : List (String × Nat)) (k : String) : Nat :=
  ((m.find? (fun p => p.1 = k)).map Prod.snd).getD 0

/-- Function `SetUUIDSeq`: assign into the nested progress map,
creating the nested maps as needed. -/
def setUUIDSeq
    (m : List (String × List (String × List (String × UUIDSeq))))
    (pindex sourcePartition node uuid : String) (seq : Nat) :
    List (String × List (String × List (String × UUIDSeq))) :=
  let sourcePartitions :=
    ((m.find? (fun p => p.1 = pindex)).map Prod.snd).getD []
  let nodes :=
    ((sourcePartitions.find? (fun p => p.1 = sourcePartition)).map
      Prod.snd).getD []
  let nodes' := mapAssign nodes node { UUID := uuid, Seq := seq }
  let sourcePartitions' := mapAssign sourcePartitions sourcePartition nodes'
  mapAssign m pindex sourcePartitions'

/-- The `currSeqs` updates for one decoded stats sample from `node`. -/
def updateCurrSeqs
    (cs : List (String × List (String × List (String × UUIDSeq))))
    (node : String)
    (pindexes : List (String × List (String × UUIDSeq))) :
    List (String × List (String × List (String × UUIDSeq))) :=
  pindexes.foldl (fun acc px =>
    px.2.foldl (fun acc2 sp =>
      setUUIDSeq acc2 px.1 sp.1 node sp.2.UUID sp.2.Seq) acc) cs

/-- The body of `runMonitor`'s select loop for one received sample:
count consecutive errors per node (a `uint8`, hence `% 256`), tolerate
counts below the threshold, push an error progress event and `Stop()`
at the threshold; a decoded stats sample resets the node's counter to
zero and records the sequence numbers. -/
def runMonitorSample (errThreshold : Nat) (st : MonitorState)
    (s : MonitorSample) : MonitorState × List MonitorAction :=
  match s.Error with
  | some e =>
      let n := (lookupCount st.errMap s.UUID + 1) % 256
      let st' := { st with errMap := mapAssign st.errMap s.UUID n }
      if n < errThreshold then (st', [])
      else (st', [.progressError e, .stop])
  | none =>
      if s.Kind = statsSampleKind then
        match s.Data with
        | .noData =>
            let n := (lookupCount st.errMap s.UUID + 1) % 256
            let st' := { st with errMap := mapAssign st.errMap s.UUID n }
            if n < errThreshold then (st', [])
            else
              -- fall through: reset, then json.Unmarshal(nil) fails
              let st'' := { st' with
                errMap := mapAssign st'.errMap s.UUID 0 }
              (st'', [.progressError "json unmarshal error", .stop])
        | .bad =>
            let st' := { st with errMap := mapAssign st.errMap s.UUID 0 }
            (st', [.progressError "json unmarshal error", .stop])
        | .stats m =>
            let st' := { st with
              errMap := mapAssign st.errMap s.UUID 0
              currSeqs := updateCurrSeqs st.currSeqs s.UUID m }
            (st', [])
      else (st, [])

/-- Loop `runMonitor` over a finite sample stream: fold the per-sample body,
collecting the emitted actions in order. -/
def runMonitorSamples (errThreshold : Nat) (st : MonitorState)
    (samples : List MonitorSample) : MonitorState × List MonitorAction :=
  samples.foldl (fun acc s =>
    let r := runMonitorSample errThreshold acc.1 s
    (r.1, acc.2 ++ r.2)) (st, [])

/-! ## `Manager.SaveNodeDef` (manager.go) -/

/-- The Manager fields `SaveNodeDef` reads. -/
structure Manager where
  version : String := ""
  uuid : String := ""
  bindHttp : String := ""
  tags : List String := []
  container : String := ""
  weight : Int := 0
  extras : String := ""
deriving DecidableEq, Repr, Inhabited

/-- The `NodeDef` that `SaveNodeDef` builds from the Manager. -/
def managerNodeDef (mgr : Manager) : NodeDef :=
  { HostPort := mgr.bindHttp
    UUID := mgr.uuid
    ImplVersion := mgr.version
    Tags := mgr.tags
    Container := mgr.container
    Weight := mgr.weight
    Extras := mgr.extras }

/-- Helper `CfgGetNodeDefs`: read and unmarshal the node defs of a kind (the
helper is defined outside the provided source files; its get-and-decode
behavior follows the spec's Cfg keyspace, §6). -/
def cfgGetNodeDefs (s : SimpleCfgState) (kind : String) :
    (Except String (Option NodeDefs × Nat)) × SimpleCfgState :=
  match simpleCfg.get (CfgNodeDefsKey kind) 0 s with
  | (.error e, s') => (.error (cfgErrMsg e), s')
  | (.ok (none, cas), s') => (.ok (none, cas), s')
  | (.ok (some (.nodeDefs nd), cas), s') => (.ok (some nd, cas), s')
  | (.ok (some (.str _), _), s') => (.error "json unmarshal error", s')

/-- Modelled from the spec (§4.3): `NewNodeDefs(version)` (defined
outside the provided source files) — a fresh empty aggregate carrying
the version. -/
def NewNodeDefs (version : String) : NodeDefs :=
  { UUID := "", ImplVersion := version, NodeDefs := [] }

/-- Modelled from the spec (§6): `CfgGetVersion` (defined outside the
provided source files) — the `version` key's string, defaulting to the
package version. -/
def CfgGetVersion (s : SimpleCfgState) : String :=
  match simpleCfgLookup s versionKey with
  | some (.str v, _) => v
  | _ => "5.5.0"

/-- One iteration of `SaveNodeDef`'s CAS loop: `.inl` is a final result
(error or clean return), `.inr` a CAS retry with the post-set state. -/
def saveNodeDefStep (mgr : Manager) (kind : String) (force : Bool)
    (newUUID : Nat → String) (s : SimpleCfgState) (g : Nat) :
    (Option String × SimpleCfgState × Nat) ⊕ (SimpleCfgState × Nat) :=
  match cfgGetNodeDefs s kind with
  | (.error e, s') => .inl (some e, s', g)
  | (.ok (ndsOpt, cas), s') =>
      let nds := ndsOpt.getD (NewNodeDefs mgr.version)
      let prev := (nds.NodeDefs.find? (fun p => p.1 = mgr.uuid)).map Prod.snd
      if prev = some (managerNodeDef mgr) ∧ force = false then
        .inl (none, s', g)
      else
        let nds' : NodeDefs :=
          { UUID := newUUID g
            ImplVersion := CfgGetVersion s'
            NodeDefs := mapAssign nds.NodeDefs mgr.uuid (managerNodeDef mgr) }
        match simpleCfg.set (CfgNodeDefsKey kind) (.nodeDefs nds') cas s' with
        | (.error .casMismatch, s'') => .inr (s'', g + 1)
        | (.error (.other e), s'') => .inl (some e, s'', g + 1)
        | (.ok _, s'') => .inl (none, s'', g + 1)

/-- The CAS retry loop of `SaveNodeDef` (unbounded `for` in Go; `fuel` bounds
the embedding — with the single-writer simple Cfg one iteration always
suffices). -/
def saveNodeDefLoop (mgr : Manager) (kind : String) (force : Bool)
    (newUUID : Nat → String) : Nat → SimpleCfgState × Nat →
    Option String × SimpleCfgState × Nat
  | 0, (s, g) => (some "retries exhausted", s, g)
  | fuel + 1, (s, g) =>
      match saveNodeDefStep mgr kind force newUUID s g with
      | .inl r => r
      | .inr sg => saveNodeDefLoop mgr kind force newUUID fuel sg

/-- Method `Manager.SaveNodeDef(kind, force)` against the simple Cfg. -/
def saveNodeDef (mgr : Manager) (kind : String) (force : Bool)
    (newUUID : Nat → String) (s : SimpleCfgState) (g : Nat) :
    Option String × SimpleCfgState × Nat :=
  saveNodeDefLoop mgr kind force newUUID 100 (s, g)

/-- The NodeDef currently registered under `uuid` in a kind's stored
NodeDefs. -/
def prevNodeDef (s : SimpleCfgState) (kind uuid : String) : Option NodeDef :=
  match simpleCfgLookup s (CfgNodeDefsKey kind) with
  | some (.nodeDefs nds, _) =>
      (nds.NodeDefs.find? (fun p => p.1 = uuid)).map Prod.snd
  | _ => none

/-! ## MD5 and `GetStableLocalPlanPIndexes` (manager.go, util.go) -/

/-- The 64 MD5 sine constants (RFC 1321), as used by Go's `crypto/md5`
behind `computeMD5`. -/
def md5K : List Nat :=
  [0xd76aa478, 0xe8c7b756, 0x242070db, 0xc1bdceee,
   0xf57c0faf, 0x4787c62a, 0xa8304613, 0xfd469501,
   0x698098d8, 0x8b44f7af, 0xffff5bb1, 0x895cd7be,
   0x6b901122, 0xfd987193, 0xa679438e, 0x49b40821,
   0xf61e2562, 0xc040b340, 0x265e5a51, 0xe9b6c7aa,
   0xd62f105d, 0x02441453, 0xd8a1e681, 0xe7d3fbc8,
   0x21e1cde6, 0xc33707d6, 0xf4d50d87, 0x455a14ed,
   0xa9e3e905, 0xfcefa3f8, 0x676f02d9, 0x8d2a4c8a,
   0xfffa3942, 0x8771f681, 0x6d9d6122, 0xfde5380c,
   0xa4beea44, 0x4bdecfa9, 0xf6bb4b60, 0xbebfbc70,
   0x289b7ec6, 0xeaa127fa, 0xd4ef3085, 0x04881d05,
   0xd9d4d039, 0xe6db99e5, 0x1fa27cf8, 0xc4ac5665,
   0xf4292244, 0x432aff97, 0xab9423a7, 0xfc93a039,
   0x655b59c3, 0x8f0ccc92, 0xffeff47d, 0x85845dd1,
   0x6fa87e4f, 0xfe2ce6e0, 0xa3014314, 0x4e0811a1,
   0xf7537e82, 0xbd3af235, 0x2ad7d2bb, 0xeb86d391]

/-- The per-round left-rotation amounts of MD5. -/
def md5S : List Nat :=
  [7, 12, 17, 22, 7, 12, 17, 22, 7, 12, 17, 22, 7, 12, 17, 22,
   5, 9, 14, 20, 5, 9, 14, 20, 5, 9, 14, 20, 5, 9, 14, 20,
   4, 11, 16, 23, 4, 11, 16, 23, 4, 11, 16, 23, 4, 11, 16, 23,
   6, 10, 15, 21, 6, 10, 15, 21, 6, 10, 15, 21, 6, 10, 15, 21]

def w32 : Nat := 4294967296

/-- Bitwise complement of a 32-bit value. -/
def not32 (x : Nat) : Nat := w32 - 1 - x % w32

def leftrot32 (x s : Nat) : Nat :=
  Nat.lor (Nat.shiftLeft x s % w32) (Nat.shiftRight (x % w32) (32 - s))

def md5F (i b c d : Nat) : Nat :=
  if i < 16 then Nat.lor (Nat.land b c) (Nat.land (not32 b) d)
  else if i < 32 then Nat.lor (Nat.land d b) (Nat.land (not32 d) c)
  else if i < 48 then Nat.xor b (Nat.xor c d)
  else Nat.xor c (Nat.lor b (not32 d))

def md5G (i : Nat) : Nat :=
  if i < 16 then i
  else if i < 32 then (5 * i + 1) % 16
  else if i < 48 then (3 * i + 5) % 16
  else (7 * i) % 16

/-- The `j`-th little-endian 32-bit word of a 64-byte block. -/
def word32 (block : List Nat) (j : Nat) : Nat :=
  block.getD (4 * j) 0 + 256 * block.getD (4 * j + 1) 0 +
    65536 * block.getD (4 * j + 2) 0 + 16777216 * block.getD (4 * j + 3) 0

def md5Round (block : List Nat) (st : Nat × Nat × Nat × Nat) (i : Nat) :
    Nat × Nat × Nat × Nat :=
  let (a, b, c, d) := st
  let f := (md5F i b c d + a + md5K.getD i 0 + word32 block (md5G i)) % w32
  (d, (b + leftrot32 f (md5S.getD i 0)) % w32, b, c)

def md5Block (h : Nat × Nat × Nat × Nat) (block : List Nat) :
    Nat × Nat × Nat × Nat :=
  let r := (List.range 64).foldl (md5Round block) h
  ((h.1 + r.1) % w32, (h.2.1 + r.2.1) % w32,
   (h.2.2.1 + r.2.2.1) % w32, (h.2.2.2 + r.2.2.2) % w32)

/-- Little-endian 8-byte encoding of a 64-bit value. -/
def le8 (x : Nat) : List Nat :=
  [x % 256, x / 256 % 256, x / 65536 % 256, x / 16777216 % 256,
   x / 4294967296 % 256, x / 1099511627776 % 256,
   x / 281474976710656 % 256, x / 72057594037927936 % 256]

/-- MD5 padding: a 1-bit, zeros to 56 mod 64, the bit length. -/
def md5Pad (msg : List Nat) : List Nat :=
  let len := msg.length
  let z := (64 + 56 - (len + 1) % 64) % 64
  msg ++ [128] ++ List.replicate z 0 ++ le8 (8 * len % 2 ^ 64)

/-- Split into 64-byte blocks (fuel-structural; `fuel ≥` block count). -/
def chunks64Fuel : Nat → List Nat → List (List Nat)
  | 0, _ => []
  | _, [] => []
  | fuel + 1, l => l.take 64 :: chunks64Fuel fuel (l.drop 64)

def chunks64 (l : List Nat) : List (List Nat) := chunks64Fuel l.length l

/-- Little-endian 4-byte encoding of a 32-bit value. -/
def le4 (x : Nat) : List Nat :=
  [x % 256, x / 256 % 256, x / 65536 % 256, x / 16777216 % 256]

/-- The 16 MD5 digest bytes of a message (RFC 1321). -/
def md5 (msg : List Nat) : List Nat :=
  let r := (chunks64 (md5Pad msg)).foldl md5Block
    (0x67452301, 0xefcdab89, 0x98badcfe, 0x10325476)
  le4 r.1 ++ le4 r.2.1 ++ le4 r.2.2.1 ++ le4 r.2.2.2

/-- Function `computeMD5` (util.go): lowercase hex of the MD5 of the payload. -/
def computeMD5 (payload : List Nat) : String :=
  String.mk ((md5 payload).foldr
    (fun b acc => hexDigit (b / 16 % 16) :: hexDigit (b % 16) :: acc) [])

/-- The stored plan aggregate, `PlanPIndexes`. -/
structure PlanPIndexes where
  UUID : String := ""
  ImplVersion : String := ""
  PlanPIndexes : List (String × PlanPIndex) := []
  Warnings : List (String × List String) := []
deriving DecidableEq, Repr, Inhabited

/-- Go expression `fname[strings.LastIndex(fname, "-")+1:]`: the suffix after the last
dash; the whole string when there is no dash. -/
def suffixAfterLastDash (s : String) : String :=
  String.mk ((s.data.reverse.takeWhile (fun c => c ≠ '-')).reverse)

/-- The read loop of `GetStableLocalPlanPIndexes`, walking the
name-sorted directory listing from newest (last) to oldest (first) —
here the argument is already reversed, newest first.  A file whose read
failed (`none` content) or whose content hash does not match the name's
MD5 suffix is skipped; the first verified file is decoded
(`json.Unmarshal`, external, abstracted by the `unmarshal` parameter;
on a decode failure Go returns nil). -/
def getStablePlanPIndexesRec (unmarshal : List Nat → Option PlanPIndexes) :
    List (String × Option (List Nat)) → Option PlanPIndexes
  | [] => none
  | (fname, content) :: older =>
      match content with
      | none => getStablePlanPIndexesRec unmarshal older
      | some val =>
          if computeMD5 val ≠ suffixAfterLastDash fname then
            getStablePlanPIndexesRec unmarshal older
          else unmarshal val

/-- Method `Manager.GetStableLocalPlanPIndexes`: `files` is the name-sorted
(`ioutil.ReadDir`) listing of the `planPIndexes` directory, oldest
first; each entry carries its content, or `none` for a read error. -/
def getStableLocalPlanPIndexes (unmarshal : List Nat → Option PlanPIndexes)
    (files : List (String × Option (List Nat))) : Option PlanPIndexes :=
  getStablePlanPIndexesRec unmarshal files.reverse

/-! ## Covering selector (pindex.go, `coveringPIndexesEx`) -/

/-- The fields of a live local `PIndex` the covering selector reads. -/
structure PIndex where
  Name : String := ""
  IndexName : String := ""
  IndexUUID : String := ""
deriving DecidableEq, Repr, Inhabited

/-- Predicate `nodeDoesPIndexes`: the wanted NodeDef for a node UUID when its
stored UUID matches and it has the "pindex" tag (or no tags). -/
def nodeDoesPIndexes (nds : NodeDefs) (nodeUUID : String) : Option NodeDef :=
  match (nds.NodeDefs.find? (fun p => p.1 = nodeUUID)).map Prod.snd with
  | some nodeDef =>
      if nodeDef.UUID = nodeUUID then
        if nodeDef.Tags.length ≤ 0 then some nodeDef
        else if nodeDef.Tags.any (fun t => t = "pindex") then some nodeDef
        else none
      else none
  | none => none

/-- Whether the local node currently has this plan partition opened
with a matching index name and (unless empty) index UUID. -/
def nodeLocalOKFor (pindexes : List (String × PIndex))
    (indexName indexUUID planPIndexName : String) : Bool :=
  match (pindexes.find? (fun p => p.1 = planPIndexName)).map Prod.snd with
  | some localPIndex =>
      (localPIndex.Name == planPIndexName) &&
      (localPIndex.IndexName == indexName) &&
      ((indexUUID == "") || (localPIndex.IndexUUID == indexUUID))
  | none => false

/-- The local-preference test: the candidate is the local node and the
local node has the pindex opened with matching identity. -/
abbrev coverNodeLocalOK (selfUUID indexName indexUUID : String)
    (pindexes : List (String × PIndex)) (planPIndexName nodeUUID : String) :
    Prop :=
  nodeUUID = selfUUID ∧
    nodeLocalOKFor pindexes indexName indexUUID planPIndexName = true

/-- The per-candidate-node body of the covering selector's inner loop:
track the passing node with the lowest `Priority`, preferring the local
node on ties (and, for a strictly lower priority, only accepting the
local node when it actually has the pindex opened). -/
def coverNodeStep (selfUUID indexName indexUUID : String)
    (nodeDefs : NodeDefs) (pindexes : List (String × PIndex))
    (filter : PlanPIndexNode → Bool) (planPIndex : PlanPIndex)
    (acc : Option NodeDef × Int) (np : String × PlanPIndexNode) :
    Option NodeDef × Int :=
  match nodeDoesPIndexes nodeDefs np.1 with
  | some nodeDef =>
      if filter np.2 then
        if np.2.Priority < acc.2 then
          if ¬(np.1 = selfUUID) ∨ ((np.1 = selfUUID) ∧
              coverNodeLocalOK selfUUID indexName indexUUID pindexes
                planPIndex.Name np.1) then
            (some nodeDef, np.2.Priority)
          else acc
        else if np.2.Priority = acc.2 then
          if (np.1 = selfUUID) ∧
              coverNodeLocalOK selfUUID indexName indexUUID pindexes
                planPIndex.Name np.1 then
            (some nodeDef, np.2.Priority)
          else acc
        else acc
      else acc
  | none => acc

/-- Constant `math.MaxInt64`, the initial lowest priority. -/
def maxInt64 : Int := 9223372036854775807

/-- The winning node for one plan partition. -/
def coverSelectNode (selfUUID indexName indexUUID : String)
    (nodeDefs : NodeDefs) (pindexes : List (String × PIndex))
    (filter : PlanPIndexNode → Bool) (planPIndex : PlanPIndex) :
    Option NodeDef :=
  (planPIndex.Nodes.foldl
    (coverNodeStep selfUUID indexName indexUUID nodeDefs pindexes filter
      planPIndex)
    (none, maxInt64)).1

/-- Method `Manager.coveringPIndexesEx` after the plan and node defs are
fetched: per partition, pick the winner and append to the local, remote
or missing list. -/
def coveringPIndexesEx (selfUUID indexName indexUUID : String)
    (nodeDefs : NodeDefs) (pindexes : List (String × PIndex))
    (filter : PlanPIndexNode → Bool) (planPIndexes : List PlanPIndex) :
    List (Option PIndex) × List (PlanPIndex × NodeDef) × List String :=
  planPIndexes.foldl (fun acc planPIndex =>
    match coverSelectNode selfUUID indexName indexUUID nodeDefs pindexes
        filter planPIndex with
    | none => (acc.1, acc.2.1, acc.2.2 ++ [planPIndex.Name])
    | some lowestNode =>
        if lowestNode.UUID = selfUUID then
          (acc.1 ++ [(pindexes.find? (fun p => p.1 = planPIndex.Name)).map
            Prod.snd], acc.2.1, acc.2.2)
        else
          (acc.1, acc.2.1 ++ [(planPIndex, lowestNode)], acc.2.2))
    ([], [], [])

/-- The association-list entries produced by successive `addPlanPIndex`
calls when no name collides: one entry per chunk, in order, with the
`k`-th chunk consuming the `k`-th generated UUID. -/
def splitEntries (d : IndexDef) (u : Nat → String) (k : Nat) :
    List (List String) → List (String × PlanPIndex)
  | [] => []
  | c :: rest =>
      (PlanPIndexName d (String.intercalate "," c),
        mkSplitPlanPIndex d u k c) :: splitEntries d u (k + 1) rest

theorem splitEntries_length (d : IndexDef) (u : Nat → String) :
    ∀ (chunks : List (List String)) (k : Nat),
      (splitEntries d u k chunks).length = chunks.length := by
  intro chunks
  induction chunks with
  | nil => intro k; rfl
  | cons c rest ih => intro k; simp [splitEntries, ih]

theorem splitEntries_map_fst (d : IndexDef) (u : Nat → String) :
    ∀ (chunks : List (List String)) (k : Nat),
      (splitEntries d u k chunks).map Prod.fst =
        chunks.map (fun c => PlanPIndexName d (String.intercalate "," c)) := by
  intro chunks
  induction chunks with
  | nil => intro k; rfl
  | cons c rest ih => intro k; simp [splitEntries, ih]

theorem splitEntries_concat (d : IndexDef) (u : Nat → String) :
    ∀ (chunks : List (List String)) (k : Nat) (c : List String),
      splitEntries d u k (chunks ++ [c]) =
        splitEntries d u k chunks ++
          [(PlanPIndexName d (String.intercalate "," c),
            mkSplitPlanPIndex d u (k + chunks.length) c)] := by
  intro chunks
  induction chunks with
  | nil => intro k c; simp [splitEntries]
  | cons c0 rest ih =>
      intro k c
      simp only [List.cons_append, splitEntries, List.length_cons, List.append_eq]
      rw [ih]
      have harith : k + 1 + rest.length = k + (rest.length + 1) := by omega
      rw [harith]

/-- Folding `addPlanPIndex` over chunks whose names are fresh and
pairwise distinct just appends the corresponding entries. -/
theorem foldl_addPlanPIndex (d : IndexDef) (u : Nat → String) :
    ∀ (chunks : List (List String)) (mp : List (String × PlanPIndex)) (k : Nat),
      (mp.map Prod.fst ++
        chunks.map (fun c => PlanPIndexName d (String.intercalate "," c))).Nodup →
      chunks.foldl (addPlanPIndex d u) (mp, k) =
        (mp ++ splitEntries d u k chunks, k + chunks.length) := by
  intro chunks
  induction chunks with
  | nil => intro mp k _; simp [splitEntries]
  | cons c rest ih =>
      intro mp k hnd
      have hname : PlanPIndexName d (String.intercalate "," c) ∉
          mp.map Prod.fst := by
        intro hmem
        simp only [List.map_cons] at hnd
        have hdisj := List.disjoint_of_nodup_append hnd
        exact hdisj hmem (by simp)
      have hassign : addPlanPIndex d u (mp, k) c =
          (mp ++ [(PlanPIndexName d (String.intercalate "," c),
            mkSplitPlanPIndex d u k c)], k + 1) := by
        have hany : mp.any
            (fun p => p.1 = PlanPIndexName d (String.intercalate "," c)) = false := by
          simp only [List.any_eq_false]
          intro p hp hpe
          exact hname (by
            simp only [decide_eq_true_eq] at hpe
            exact hpe ▸ List.mem_map_of_mem Prod.fst hp)
        simp [addPlanPIndex, mkSplitPlanPIndex, mapAssign, hany]
      have hnd' : ((mp ++ [(PlanPIndexName d (String.intercalate "," c),
            mkSplitPlanPIndex d u k c)]).map Prod.fst ++
          rest.map (fun c => PlanPIndexName d (String.intercalate "," c))).Nodup := by
        simp only [List.map_append, List.map_cons, List.map_nil] at hnd ⊢
        simpa [List.append_assoc] using hnd
      calc (c :: rest).foldl (addPlanPIndex d u) (mp, k)
          = rest.foldl (addPlanPIndex d u) (addPlanPIndex d u (mp, k) c) := rfl
        _ = rest.foldl (addPlanPIndex d u)
              (mp ++ [(PlanPIndexName d (String.intercalate "," c),
                mkSplitPlanPIndex d u k c)], k + 1) := by rw [hassign]
        _ = (mp ++ [(PlanPIndexName d (String.intercalate "," c),
                mkSplitPlanPIndex d u k c)] ++ splitEntries d u (k + 1) rest,
              (k + 1) + rest.length) := ih _ _ hnd'
        _ = (mp ++ splitEntries d u k (c :: rest), k + (c :: rest).length) := by
              simp [splitEntries, List.append_assoc]
              omega

/-- The split's main loop over source partitions, characterized by the
emitted full chunks and the leftover partial chunk. -/
theorem split_loop_eq (d : IndexDef) (u : Nat → String) (m : Nat)
    (hd : d.PlanParams.MaxPartitionsPerPIndex = (m : Int)) (hm : 0 < m) :
    ∀ (arr : List String) (st : List (String × PlanPIndex) × Nat)
      (curr : List String),
      arr.foldl (splitStep d u) (st, curr) =
        ((emitChunks m curr arr).foldl (addPlanPIndex d u) st,
          leftoverChunk m curr arr) := by
  intro arr
  induction arr with
  | nil => intro st curr; simp [emitChunks, leftoverChunk]
  | cons sp rest ih =>
      intro st curr
      by_cases hc : curr.length + 1 ≥ m
      · have hcond : d.PlanParams.MaxPartitionsPerPIndex > 0 ∧
            ((curr ++ [sp]).length : Int) ≥
              d.PlanParams.MaxPartitionsPerPIndex := by
          rw [hd]
          refine ⟨by exact_mod_cast hm, ?_⟩
          simp only [List.length_append, List.length_cons, List.length_nil]
          exact_mod_cast hc
        simp only [List.foldl_cons, splitStep, if_pos hcond]
        rw [ih]
        simp [emitChunks, leftoverChunk, hc]
      · have hcond : ¬(d.PlanParams.MaxPartitionsPerPIndex > 0 ∧
            ((curr ++ [sp]).length : Int) ≥
              d.PlanParams.MaxPartitionsPerPIndex) := by
          rw [hd]
          rintro ⟨-, hge⟩
          apply hc
          have hle : m ≤ (curr ++ [sp]).length := by exact_mod_cast hge
          simpa using hle
        simp only [List.foldl_cons, splitStep, if_neg hcond]
        rw [ih]
        simp [emitChunks, leftoverChunk, hc]

/-- Every chunk emitted by the main split loop has exactly `m`
partitions. -/
theorem emitChunks_mem_length (m : Nat) :
    ∀ (arr curr : List String) (c : List String), curr.length < m →
      c ∈ emitChunks m curr arr → c.length = m := by
  intro arr
  induction arr with
  | nil => intro curr c _ hmem; simp [emitChunks] at hmem
  | cons sp rest ih =>
      intro curr c hcurr hmem
      by_cases hc : curr.length + 1 ≥ m
      · simp only [emitChunks, if_pos hc, List.mem_cons] at hmem
        rcases hmem with rfl | hmem
        · simp only [List.length_append, List.length_cons, List.length_nil]
          omega
        · exact ih [] c (by simp only [List.length_nil]; omega) hmem
      · simp only [emitChunks, if_neg hc] at hmem
        exact ih (curr ++ [sp]) c (by simp only [List.length_append, List.length_cons, List.length_nil]; omega) hmem

/-- Number of chunks the main split loop emits. -/
theorem emitChunks_length (m : Nat) (hm : 0 < m) :
    ∀ (arr curr : List String), curr.length < m →
      (emitChunks m curr arr).length = (curr.length + arr.length) / m := by
  intro arr
  induction arr with
  | nil =>
      intro curr hcurr
      simp [emitChunks, Nat.div_eq_of_lt hcurr]
  | cons sp rest ih =>
      intro curr hcurr
      by_cases hc : curr.length + 1 ≥ m
      · have hce : curr.length + 1 = m := by omega
        simp only [emitChunks, if_pos hc, List.length_cons]
        rw [ih [] (by simp only [List.length_nil]; omega)]
        simp only [List.length_nil, List.length_cons, Nat.zero_add]
        have : curr.length + (rest.length + 1) = rest.length + m := by omega
        rw [this, Nat.add_div_right _ hm]
      · simp only [emitChunks, if_neg hc, List.length_cons]
        rw [ih (curr ++ [sp]) (by simp only [List.length_append, List.length_cons, List.length_nil]; omega)]
        congr 1
        simp only [List.length_append, List.length_cons, List.length_nil]
        omega

/-- Size of the leftover partial chunk after the main split loop. -/
theorem leftoverChunk_length (m : Nat) (hm : 0 < m) :
    ∀ (arr curr : List String), curr.length < m →
      (leftoverChunk m curr arr).length = (curr.length + arr.length) % m := by
  intro arr
  induction arr with
  | nil =>
      intro curr hcurr
      simp [leftoverChunk, Nat.mod_eq_of_lt hcurr]
  | cons sp rest ih =>
      intro curr hcurr
      by_cases hc : curr.length + 1 ≥ m
      · have hce : curr.length + 1 = m := by omega
        simp only [leftoverChunk, if_pos hc, List.length_cons]
        rw [ih [] (by simp only [List.length_nil]; omega)]
        simp only [List.length_nil, Nat.zero_add]
        have : curr.length + (rest.length + 1) = rest.length + m := by omega
        rw [this, Nat.add_mod_right]
      · simp only [leftoverChunk, if_neg hc, List.length_cons]
        rw [ih (curr ++ [sp]) (by simp only [List.length_append, List.length_cons, List.length_nil]; omega)]
        congr 1
        simp only [List.length_append, List.length_cons, List.length_nil]
        omega

/-- Bridge: the split function in terms of emitted chunks and leftover. -/
theorem splitIndexDef_loop_form (d : IndexDef) (arr : List String)
    (u : Nat → String) (m : Nat)
    (hd : d.PlanParams.MaxPartitionsPerPIndex = (m : Int)) (hm : 0 < m) :
    splitIndexDefIntoPlanPIndexes d arr u =
      (if (leftoverChunk m [] arr).length > 0 ∨
          ((emitChunks m [] arr).foldl (addPlanPIndex d u) ([], 0)).1.length = 0
       then (addPlanPIndex d u
          ((emitChunks m [] arr).foldl (addPlanPIndex d u) ([], 0))
          (leftoverChunk m [] arr)).1
       else ((emitChunks m [] arr).foldl (addPlanPIndex d u) ([], 0)).1) := by
  simp only [splitIndexDefIntoPlanPIndexes]
  rw [split_loop_eq d u m hd hm arr ([], 0) []]

/-- When the chunk names are pairwise distinct, the split produces
exactly one association-list entry per chunk of `splitChunks`, in
order. -/
theorem splitIndexDef_eq_splitEntries (d : IndexDef) (arr : List String)
    (u : Nat → String) (m : Nat)
    (hd : d.PlanParams.MaxPartitionsPerPIndex = (m : Int)) (hm : 0 < m)
    (hnames : ((splitChunks m arr).map
      (fun c => PlanPIndexName d (String.intercalate "," c))).Nodup) :
    splitIndexDefIntoPlanPIndexes d arr u =
      splitEntries d u 0 (splitChunks m arr) := by
  rw [splitIndexDef_loop_form d arr u m hd hm]
  by_cases hb : (leftoverChunk m [] arr).length > 0 ∨
      (emitChunks m [] arr).length = 0
  · have hsc : splitChunks m arr =
        emitChunks m [] arr ++ [leftoverChunk m [] arr] := by
      simp only [splitChunks]
      rw [if_pos hb]
    rw [hsc] at hnames
    rw [List.map_append] at hnames
    obtain ⟨hnE, -, hdisj⟩ := List.nodup_append.mp hnames
    have hfold := foldl_addPlanPIndex d u (emitChunks m [] arr) [] 0
      (by simpa using hnE)
    simp only [List.nil_append, Nat.zero_add] at hfold
    rw [hfold]
    have hlen : (splitEntries d u 0 (emitChunks m [] arr)).length =
        (emitChunks m [] arr).length := splitEntries_length d u _ 0
    have hcond : (leftoverChunk m [] arr).length > 0 ∨
        (splitEntries d u 0 (emitChunks m [] arr)).length = 0 := by
      rw [hlen]; exact hb
    rw [if_pos hcond]
    have hLnotin : ¬ (splitEntries d u 0 (emitChunks m [] arr)).any
        (fun p => p.1 = PlanPIndexName d
          (String.intercalate "," (leftoverChunk m [] arr))) = true := by
      simp only [List.any_eq_true, not_exists, not_and]
      intro p hp hpe
      simp only [decide_eq_true_eq] at hpe
      have hmemE : PlanPIndexName d
          (String.intercalate "," (leftoverChunk m [] arr)) ∈
          (emitChunks m [] arr).map
            (fun c => PlanPIndexName d (String.intercalate "," c)) := by
        rw [← splitEntries_map_fst d u (emitChunks m [] arr) 0]
        exact hpe ▸ List.mem_map_of_mem Prod.fst hp
      exact hdisj hmemE (by simp)
    simp only [addPlanPIndex, mapAssign]
    rw [if_neg (by simpa using hLnotin)]
    rw [hsc, splitEntries_concat]
    simp [mkSplitPlanPIndex]
  · have hsc : splitChunks m arr = emitChunks m [] arr := by
      simp only [splitChunks]
      rw [if_neg hb]
    rw [hsc] at hnames
    have hfold := foldl_addPlanPIndex d u (emitChunks m [] arr) [] 0
      (by simpa using hnames)
    simp only [List.nil_append, Nat.zero_add] at hfold
    rw [hfold]
    have hlen : (splitEntries d u 0 (emitChunks m [] arr)).length =
        (emitChunks m [] arr).length := splitEntries_length d u _ 0
    rw [if_neg (by rw [hlen]; exact hb)]
    rw [hsc]

/-- Number of chunks handed to `addPlanPIndex`: one when there are no
source partitions, otherwise `⌈n/m⌉`. -/
theorem splitChunks_length (m : Nat) (hm : 0 < m) (arr : List String) :
    (splitChunks m arr).length =
      (if arr.length = 0 then 1 else (arr.length + m - 1) / m) := by
  have hE := emitChunks_length m hm arr [] (by simpa using hm)
  have hL := leftoverChunk_length m hm arr [] (by simpa using hm)
  simp only [List.length_nil, Nat.zero_add] at hE hL
  have hdm := Nat.div_add_mod arr.length m
  have hmod := Nat.mod_lt arr.length hm
  by_cases hn : arr.length = 0
  · have hE0 : (emitChunks m [] arr).length = 0 := by
      rw [hE, hn]; exact Nat.div_eq_of_lt hm
    have hL0 : (leftoverChunk m [] arr).length = 0 := by
      rw [hL, hn]; exact Nat.zero_mod m
    simp only [splitChunks, hn, if_pos]
    rw [if_pos (Or.inr hE0)]
    simp [hE0, hL0]
  · rw [if_neg hn]
    by_cases hmod0 : arr.length % m = 0
    · have hq : 0 < arr.length / m := by
        rcases Nat.eq_zero_or_pos (arr.length / m) with hq0 | hq0
        · exfalso
          apply hn
          have hz : m * (arr.length / m) = 0 := by rw [hq0, Nat.mul_zero]
          omega
        · exact hq0
      have hbranch : ¬((leftoverChunk m [] arr).length > 0 ∨
          (emitChunks m [] arr).length = 0) := by
        push_neg
        constructor
        · omega
        · omega
      simp only [splitChunks]
      rw [if_neg hbranch, hE]
      have hmul : m * (arr.length / m) + m = m * (arr.length / m + 1) :=
        (Nat.mul_succ m (arr.length / m)).symm
      have key : arr.length + m - 1 = m * (arr.length / m) + (m - 1) := by
        omega
      rw [key, Nat.mul_add_div hm]
      have : (m - 1) / m = 0 := Nat.div_eq_of_lt (by omega)
      omega
    · have hbranch : (leftoverChunk m [] arr).length > 0 ∨
          (emitChunks m [] arr).length = 0 := by
        left; omega
      simp only [splitChunks]
      rw [if_pos hbranch]
      rw [List.length_append, List.length_cons, List.length_nil, hE]
      have hmul : m * (arr.length / m) + m = m * (arr.length / m + 1) :=
        (Nat.mul_succ m (arr.length / m)).symm
      have key : arr.length + m - 1 = m * (arr.length / m + 1) +
          (arr.length % m - 1) := by
        omega
      rw [key, Nat.mul_add_div hm]
      have : (arr.length % m - 1) / m = 0 := Nat.div_eq_of_lt (by omega)
      omega

/-- All chunks except the last have exactly `m` partitions. -/
theorem splitChunks_dropLast (m : Nat) (hm : 0 < m) (arr : List String) :
    ∀ c ∈ (splitChunks m arr).dropLast, c.length = m := by
  intro c hc
  by_cases hb : (leftoverChunk m [] arr).length > 0 ∨
      (emitChunks m [] arr).length = 0
  · simp only [splitChunks] at hc
    rw [if_pos hb, List.dropLast_concat] at hc
    exact emitChunks_mem_length m arr [] c (by simpa using hm) hc
  · simp only [splitChunks] at hc
    rw [if_neg hb] at hc
    exact emitChunks_mem_length m arr [] c (by simpa using hm)
      (List.dropLast_sublist _ |>.mem hc)

/-- The last chunk carries the remaining partitions:
`n - m * (chunkCount - 1)`. -/
theorem splitChunks_getLast (m : Nat) (hm : 0 < m) (arr : List String) :
    ((splitChunks m arr).getLastD []).length =
      arr.length - m * ((splitChunks m arr).length - 1) := by
  have hE := emitChunks_length m hm arr [] (by simpa using hm)
  have hL := leftoverChunk_length m hm arr [] (by simpa using hm)
  simp only [List.length_nil, Nat.zero_add] at hE hL
  have hdm := Nat.div_add_mod arr.length m
  by_cases hb : (leftoverChunk m [] arr).length > 0 ∨
      (emitChunks m [] arr).length = 0
  · simp only [splitChunks]
    rw [if_pos hb]
    rw [List.getLastD_concat, List.length_append, List.length_cons,
      List.length_nil]
    rw [hL, hE]
    have hsimp : arr.length / m + (0 + 1) - 1 = arr.length / m := by omega
    rw [hsimp]
    omega
  · simp only [splitChunks]
    rw [if_neg hb]
    push_neg at hb
    obtain ⟨hL0, hE0⟩ := hb
    have hEne : emitChunks m [] arr ≠ [] := by
      intro h; exact hE0 (by simp [h])
    have hmem : (emitChunks m [] arr).getLastD [] ∈ emitChunks m [] arr := by
      rcases List.eq_nil_or_concat (emitChunks m [] arr) with h | ⟨l', a, h⟩
      · exact absurd h hEne
      · rw [h, List.concat_eq_append, List.getLastD_concat]
        simp
    have hlen := emitChunks_mem_length m arr [] _ (by simpa using hm) hmem
    rw [hlen, hE]
    have hq : 0 < arr.length / m := by
      rcases Nat.eq_zero_or_pos (arr.length / m) with hq0 | hq0
      · exfalso; apply hE0; rw [hE, hq0]
      · exact hq0
    have hmul : m * (arr.length / m - 1) + m = m * (arr.length / m) := by
      have h1 : arr.length / m - 1 + 1 = arr.length / m :=
        Nat.succ_pred_eq_of_pos hq
      calc m * (arr.length / m - 1) + m
          = m * (arr.length / m - 1 + 1) := (Nat.mul_succ m _).symm
        _ = m * (arr.length / m) := by rw [h1]
    omega

set_option maxRecDepth 200000 in
/-- C2 counterexample: the claim fails as stated.  With source
partitions `["plumless", "buckeroo"]` (two strings with the same IEEE
crc32) and `MaxPartitionsPerPIndex = 1`, the claim predicts
`ceil(2/1) = 2` PlanPIndexes, but the two chunks get the same
`PlanPIndexName` and the second overwrites the first in the Go map, so
only one PlanPIndex is produced. -/
theorem splitIndexDef_collision_counterexample :
    (splitIndexDefIntoPlanPIndexes
        { Name := "i", UUID := "u",
          PlanParams := { MaxPartitionsPerPIndex := 1 } }
        ["plumless", "buckeroo"] (fun n => toString n)).length = 1 ∧
    (splitIndexDefIntoPlanPIndexes
        { Name := "i", UUID := "u",
          PlanParams := { MaxPartitionsPerPIndex := 1 } }
        ["plumless", "buckeroo"] (fun n => toString n)).length ≠
      (2 + 1 - 1) / 1 := by
  constructor
  · decide
  · decide

/-- C2 (amended): when the crc32-derived names of the chunks are
pairwise distinct, `SplitIndexDefIntoPlanPIndexes` with
`MaxPartitionsPerPIndex = m > 0` over `n` source partitions produces
exactly one PlanPIndex per chunk — `⌈n/m⌉` of them — each chunk holding
`m` source partitions except a smaller final chunk when `m` does not
divide `n`; when `n = 0` it still produces exactly one PlanPIndex whose
`SourcePartitions` is the empty string. -/
theorem splitIndexDefIntoPlanPIndexes_counts
    (d : IndexDef) (arr : List String) (u : Nat → String) (m : Nat)
    (hd : d.PlanParams.MaxPartitionsPerPIndex = (m : Int)) (hm : 0 < m)
    (hnames : ((splitChunks m arr).map
        (fun c => PlanPIndexName d (String.intercalate "," c))).Nodup) :
    splitIndexDefIntoPlanPIndexes d arr u =
      splitEntries d u 0 (splitChunks m arr) ∧
    (splitIndexDefIntoPlanPIndexes d arr u).length =
      (if arr.length = 0 then 1 else (arr.length + m - 1) / m) ∧
    (∀ c ∈ (splitChunks m arr).dropLast, c.length = m) ∧
    ((splitChunks m arr).getLastD []).length =
      arr.length - m * ((splitChunks m arr).length - 1) ∧
    (arr.length = 0 → splitIndexDefIntoPlanPIndexes d arr u =
      [(PlanPIndexName d "", mkSplitPlanPIndex d u 0 [])]) := by
  have h1 := splitIndexDef_eq_splitEntries d arr u m hd hm hnames
  refine ⟨h1, ?_, splitChunks_dropLast m hm arr,
    splitChunks_getLast m hm arr, ?_⟩
  · rw [h1, splitEntries_length, splitChunks_length m hm arr]
  · intro hn
    have harr : arr = [] := List.length_eq_zero.mp hn
    subst harr
    rw [h1]
    rfl

set_option maxRecDepth 400000 in
/-- C2 witness: 25 partitions at 10 per pindex yield 3 PlanPIndexes. -/
theorem splitIndexDefIntoPlanPIndexes_counts_witness :
    (splitIndexDefIntoPlanPIndexes
        { Name := "idx", UUID := "u1",
          PlanParams := { MaxPartitionsPerPIndex := 10 } }
        ((List.range 25).map (fun n => toString n))
        (fun n => toString n)).length = 3 := by
  have h := splitIndexDefIntoPlanPIndexes_counts
    { Name := "idx", UUID := "u1",
      PlanParams := { MaxPartitionsPerPIndex := 10 } }
    ((List.range 25).map (fun n => toString n)) (fun n => toString n) 10
    (by decide) (by decide) (by decide)
  rw [h.2.1]
  decide

theorem versionGTEList_refl : ∀ l : List Nat, versionGTEList l l = true := by
  intro l
  induction l with
  | nil => rfl
  | cons x xs ih => simp [versionGTEList, ih]

theorem VersionGTE_refl (v : String) : VersionGTE v v = true :=
  versionGTEList_refl _

theorem versionGTEList_cons_iff (x y : Nat) (xs ys : List Nat) :
    versionGTEList (x :: xs) (y :: ys) = true ↔
      (y < x ∨ (x = y ∧ versionGTEList xs ys = true)) := by
  simp only [versionGTEList]
  by_cases h1 : x > y
  · rw [if_pos h1]
    simp only [true_iff]
    exact Or.inl h1
  · rw [if_neg h1]
    by_cases h2 : x < y
    · rw [if_pos h2]
      constructor
      · intro h; cases h
      · rintro (h | ⟨he, -⟩) <;> omega
    · rw [if_neg h2]
      have hxy : x = y := by omega
      constructor
      · intro h; exact Or.inr ⟨hxy, h⟩
      · rintro (h | ⟨-, h⟩)
        · omega
        · exact h

theorem versionGTEList_trans :
    ∀ a b c : List Nat, versionGTEList a b = true →
      versionGTEList b c = true → versionGTEList a c = true := by
  intro a
  induction a with
  | nil =>
      intro b c hab hbc
      cases b with
      | nil => cases c with
        | nil => rfl
        | cons c0 cs => exact absurd hbc (by simp [versionGTEList])
      | cons b0 bs => exact absurd hab (by simp [versionGTEList])
  | cons a0 as ih =>
      intro b c hab hbc
      cases c with
      | nil => rfl
      | cons c0 cs =>
          cases b with
          | nil => exact absurd hbc (by simp [versionGTEList])
          | cons b0 bs =>
              rw [versionGTEList_cons_iff] at hab hbc ⊢
              rcases hab with h1 | ⟨he1, h1⟩ <;> rcases hbc with h2 | ⟨he2, h2⟩
              · exact Or.inl (by omega)
              · exact Or.inl (by omega)
              · exact Or.inl (by omega)
              · exact Or.inr ⟨by omega, ih bs cs h1 h2⟩

theorem VersionGTE_trans (a b c : String) (hab : VersionGTE a b = true)
    (hbc : VersionGTE b c = true) : VersionGTE a c = true :=
  versionGTEList_trans _ _ _ hab hbc

/-- Looking up the key just assigned in the Go-map model finds the new
value. -/
theorem find?_mapAssign {α : Type} (e : List (String × α)) (k : String)
    (v : α) : (mapAssign e k v).find? (fun p => p.1 = k) = some (k, v) := by
  induction e with
  | nil => simp [mapAssign, List.find?]
  | cons p rest ih =>
      unfold mapAssign at ih ⊢
      by_cases hp : p.1 = k
      · rw [if_pos (by simp [hp])]
        simp only [List.map_cons, if_pos hp]
        exact List.find?_cons_of_pos _ (by simp)
      · by_cases hr : (rest.any fun q => decide (q.1 = k)) = true
        · rw [if_pos (by
            simp only [List.any_cons, Bool.or_eq_true]
            exact Or.inr hr)]
          simp only [List.map_cons, if_neg hp]
          rw [List.find?_cons_of_neg _ (by simpa using hp)]
          rw [if_pos hr] at ih
          exact ih
        · rw [if_neg (by
            simp only [List.any_cons, Bool.or_eq_true]
            push_neg
            exact ⟨by simpa using hp, hr⟩)]
          simp only [List.cons_append]
          rw [List.find?_cons_of_neg _ (by simpa using hp)]
          rw [if_neg hr] at ih
          exact ih

/-- Reads via `simpleCfg.get` leave the state unchanged. -/
theorem simpleCfg_get_state (k : String) (cas : Nat) (s : SimpleCfgState) :
    (simpleCfg.get k cas s).2 = s := by
  simp only [simpleCfg]
  rcases simpleCfgLookup s k with _ | ⟨v, c⟩ <;> rfl

/-- One node-defs check only reads the Cfg. -/
theorem nodedefsCheckKind_simple_state (my kind : String)
    (s : SimpleCfgState) : (nodedefsCheckKind simpleCfg my kind s).2 = s := by
  unfold nodedefsCheckKind
  have h1 := simpleCfg_get_state (CfgNodeDefsKey kind) 0 s
  rcases hk : simpleCfg.get (CfgNodeDefsKey kind) 0 s with ⟨rk, sk⟩
  rw [hk] at h1
  rcases rk with e | vp
  · exact h1
  · rcases vp with ⟨v, c⟩
    exact h1

/-- The node-defs fallback checks only read the Cfg. -/
theorem nodedefsChecks_simple_state (my : String) (s : SimpleCfgState) :
    (nodedefsChecks simpleCfg my s).2 = s := by
  unfold nodedefsChecks
  have h1 := nodedefsCheckKind_simple_state my NODE_DEFS_KNOWN s
  rcases hk : nodedefsCheckKind simpleCfg my NODE_DEFS_KNOWN s with ⟨rk, sk⟩
  rw [hk] at h1
  rcases rk with e | b
  · exact h1
  · cases b with
    | false => exact h1
    | true => exact (nodedefsCheckKind_simple_state my NODE_DEFS_WANTED sk).trans h1

/-- Function `VerifyEffectiveClusterVersion` on the simple Cfg only reads. -/
theorem verifyEffective_simple_state (my : String) (s : SimpleCfgState) :
    (VerifyEffectiveClusterVersion simpleCfg my s).2 = s :=
  nodedefsChecks_simple_state my s

/-- Writes via `simpleCfg.set` either store the value (bumping cas and the write
counter) or fails with a CAS mismatch leaving the state unchanged. -/
theorem simpleCfg_set_cases (k : String) (v : CfgVal) (cas : Nat)
    (s : SimpleCfgState) :
    simpleCfg.set k v cas s =
      (.ok s.nextCas,
        { entries := mapAssign s.entries k (v, s.nextCas)
          nextCas := s.nextCas + 1
          setCount := s.setCount + 1 }) ∨
    simpleCfg.set k v cas s = (.error .casMismatch, s) := by
  simp only [simpleCfg]
  by_cases h : cas = (match simpleCfgLookup s k with
    | none => 0
    | some (_, c) => c)
  · left; rw [if_pos h]
  · right; rw [if_neg h]

/-- After assigning the version key, the stored version is the assigned
one. -/
theorem storedVersion_assign (e : List (String × (CfgVal × Nat)))
    (my : String) (n n2 n3 : Nat) :
    storedVersion { entries := mapAssign e versionKey (.str my, n)
                    nextCas := n2, setCount := n3 } = some my := by
  unfold storedVersion simpleCfgLookup
  simp only
  rw [find?_mapAssign]
  rfl

/-- The version gate's loop never downgrades the stored version: from
any state storing version `v`, the state after the loop stores a `w`
with `w ≥ v` (semver). -/
theorem checkVersionLoop_monotonic (my : String) :
    ∀ (fuel : Nat) (s : SimpleCfgState) (v : String),
      storedVersion s = some v →
      ∃ w, storedVersion (checkVersionLoop simpleCfg my fuel s).2 = some w ∧
        VersionGTE w v = true := by
  intro fuel
  induction fuel with
  | zero =>
      intro s v hv
      exact ⟨v, hv, VersionGTE_refl v⟩
  | succ fuel ih =>
      intro s v hv
      have hv0 := hv
      rcases hlk : simpleCfgLookup s versionKey with _ | ⟨val, c⟩
      · unfold storedVersion at hv
        rw [hlk] at hv
        cases hv
      rcases val with vstr | nd
      case mk.nodeDefs =>
        unfold storedVersion at hv
        rw [hlk] at hv
        cases hv
      case mk.str =>
        unfold storedVersion at hv
        rw [hlk] at hv
        have hveq : vstr = v := by injection hv
        subst hveq
        have hget : simpleCfg.get versionKey 0 s = (.ok (some (.str vstr), c), s) := by
          simp only [simpleCfg]
          rw [hlk]
        simp only [checkVersionLoop, hget, cfgValStr]
        by_cases hge : VersionGTE my vstr = false
        · rw [if_pos hge]
          exact ⟨vstr, hv0, VersionGTE_refl vstr⟩
        · rw [if_neg hge]
          have hge' : VersionGTE my vstr = true := by
            cases h : VersionGTE my vstr
            · exact absurd h hge
            · rfl
          by_cases hne : my ≠ vstr
          · rw [if_pos hne]
            have hvs := verifyEffective_simple_state my s
            rcases hvv : VerifyEffectiveClusterVersion simpleCfg my s with ⟨rv, sv⟩
            rw [hvv] at hvs
            have hsv : sv = s := hvs
            rw [hsv]
            rcases rv with e | b
            · exact ⟨vstr, hv0, VersionGTE_refl vstr⟩
            · cases b with
              | false => exact ⟨vstr, hv0, VersionGTE_refl vstr⟩
              | true =>
                  rcases simpleCfg_set_cases versionKey (.str my) c s with
                    hset | hset
                  · simp only [hset]
                    obtain ⟨w, hw, hwge⟩ := ih _ my
                      (storedVersion_assign s.entries my s.nextCas
                        (s.nextCas + 1) (s.setCount + 1))
                    exact ⟨w, hw, VersionGTE_trans w my vstr hwge hge'⟩
                  · simp only [hset]
                    exact ih s vstr hv0
          · rw [if_neg hne]
            exact ⟨vstr, hv0, VersionGTE_refl vstr⟩

/-- C3: `checkVersion` never decreases the stored version.  On an empty
Cfg, `checkVersion(cfg, "5.5.0")` stores `"5.5.0"` and returns true; a
subsequent `checkVersion(cfg, "4.5.0")` returns false and leaves the
stored value unchanged; and in general, from any state storing a
version, the state after any `checkVersion` call stores a
semver-greater-or-equal version. -/
theorem checkVersion_never_downgrades :
    (checkVersion simpleCfg "5.5.0" {}).1 = (true, none) ∧
    storedVersion (checkVersion simpleCfg "5.5.0" {}).2 = some "5.5.0" ∧
    (checkVersion simpleCfg "4.5.0" (checkVersion simpleCfg "5.5.0" {}).2).1 =
      (false, none) ∧
    storedVersion
      (checkVersion simpleCfg "4.5.0"
        (checkVersion simpleCfg "5.5.0" {}).2).2 = some "5.5.0" ∧
    ∀ (my : String) (s : SimpleCfgState) (v : String),
      storedVersion s = some v →
      ∃ w, storedVersion (checkVersion simpleCfg my s).2 = some w ∧
        VersionGTE w v = true := by
  refine ⟨by decide, by decide, by decide, by decide, ?_⟩
  intro my s v hv
  exact checkVersionLoop_monotonic my 100 s v hv

/-- C3 witness: the never-downgrade clause applied at a concrete state
storing "5.5.0" with an incoming "4.5.0". -/
theorem checkVersion_never_downgrades_witness :
    ∃ w, storedVersion (checkVersion simpleCfg "4.5.0"
      { entries := [(versionKey, (.str "5.5.0", 1))]
        nextCas := 2, setCount := 1 }).2 = some w ∧
      VersionGTE w "5.5.0" = true :=
  checkVersion_never_downgrades.2.2.2.2 "4.5.0"
    { entries := [(versionKey, (.str "5.5.0", 1))]
      nextCas := 2, setCount := 1 } "5.5.0" (by decide)

/-- C9: `checkVersion` executes at most 100 iterations of its
read-compare-CAS loop.  On a Cfg that always yields CAS conflicts
(whose state counts the started iterations), exactly 100 iterations run
and the call returns `false` with a non-nil error — a 101st iteration
is never started; and once the 100 tries are exhausted the loop returns
the error immediately without touching any Cfg. -/
theorem checkVersion_tries_capped (my : String) :
    (∀ n : Nat, checkVersion alwaysConflictCfg my n =
      ((false, some "version: checkVersion too many tries"), n + 100)) ∧
    ∀ (σ : Type) (c : CfgM σ) (s : σ),
      checkVersionLoop c my 0 s =
        ((false, some "version: checkVersion too many tries"), s) := by
  constructor
  · have key : ∀ (fuel n : Nat),
        checkVersionLoop alwaysConflictCfg my fuel n =
          ((false, some "version: checkVersion too many tries"), n + fuel) := by
      intro fuel
      induction fuel with
      | zero => intro n; rfl
      | succ fuel ih =>
          intro n
          have hstep : checkVersionLoop alwaysConflictCfg my (fuel + 1) n =
              checkVersionLoop alwaysConflictCfg my fuel (n + 1) := rfl
          rw [hstep, ih]
          congr 1
          omega
    intro n
    exact key 100 n
  · intro σ c s
    rfl

/-- Helper: `hexDigit` of a value below 16 is a lowercase hex digit. -/
theorem hexDigit_mem_hexChars (n : Nat) (h : n < 16) :
    hexDigit n ∈ "0123456789abcdef".data := by
  interval_cases n <;> decide

/-- C8: `PlanPIndexName` is a pure function of the index name, the index
UUID and the source-partitions string: it always equals
`Name ++ "_" ++ UUID ++ "_" ++` the 8-hex-digit IEEE crc32 of the
partitions string, so any two index defs agreeing on name and UUID give
the same pindex name for the same partitions string, and the suffix is
exactly eight lowercase hex digits. -/
theorem planPIndexName_pure (d d' : IndexDef) (sp : String)
    (hn : d.Name = d'.Name) (hu : d.UUID = d'.UUID) :
    PlanPIndexName d sp = PlanPIndexName d' sp ∧
    PlanPIndexName d sp =
      d.Name ++ "_" ++ d.UUID ++ "_" ++ hex8 (crc32 (stringBytes sp)) ∧
    (hex8 (crc32 (stringBytes sp))).length = 8 ∧
    ∀ c ∈ (hex8 (crc32 (stringBytes sp))).data, c ∈ "0123456789abcdef".data := by
  refine ⟨by rw [PlanPIndexName, PlanPIndexName, hn, hu], rfl, ?_, ?_⟩
  · simp [hex8, String.length]
  · intro c hc
    simp only [hex8] at hc
    rcases List.mem_map.mp hc with ⟨i, _, rfl⟩
    exact hexDigit_mem_hexChars _ (Nat.mod_lt _ (by norm_num))

/-- C8 witness: two index defs differing outside (Name, UUID) produce
the same pindex name for the same partitions string. -/
theorem planPIndexName_pure_witness :
    PlanPIndexName { Name := "a", UUID := "b", SourceName := "x" } "0,1" =
      PlanPIndexName { Name := "a", UUID := "b", SourceName := "y" } "0,1" :=
  (planPIndexName_pure { Name := "a", UUID := "b", SourceName := "x" }
    { Name := "a", UUID := "b", SourceName := "y" } "0,1" rfl rfl).1

/-- When the stored NodeDef equals the one being saved (and no force),
one `SaveNodeDef` iteration returns cleanly without any Cfg set. -/
theorem saveNodeDefStep_skip (mgr : Manager) (kind : String)
    (u : Nat → String) (s : SimpleCfgState) (g : Nat)
    (h : prevNodeDef s kind mgr.uuid = some (managerNodeDef mgr)) :
    saveNodeDefStep mgr kind false u s g = .inl (none, s, g) := by
  unfold prevNodeDef at h
  rcases hlk : simpleCfgLookup s (CfgNodeDefsKey kind) with _ | ⟨v, c⟩
  · rw [hlk] at h; cases h
  · rcases v with vs | nds
    · rw [hlk] at h; cases h
    · rw [hlk] at h
      have hget : simpleCfg.get (CfgNodeDefsKey kind) 0 s =
          (.ok (some (.nodeDefs nds), c), s) := by
        simp only [simpleCfg]
        rw [hlk]
      simp only [saveNodeDefStep, cfgGetNodeDefs, hget, Option.getD_some]
      rw [if_pos ⟨h, by trivial⟩]

/-- When the stored NodeDef differs (or is absent), one `SaveNodeDef`
iteration performs exactly one successful Cfg set, and afterwards the
stored NodeDef equals the one being saved. -/
theorem saveNodeDefStep_write (mgr : Manager) (kind : String)
    (u : Nat → String) (s : SimpleCfgState) (g : Nat)
    (hne : prevNodeDef s kind mgr.uuid ≠ some (managerNodeDef mgr))
    (hshape : ∀ (str : String) (c : Nat),
      simpleCfgLookup s (CfgNodeDefsKey kind) ≠ some (.str str, c)) :
    ∃ nds' : NodeDefs,
      saveNodeDefStep mgr kind false u s g =
        .inl (none,
          { entries := mapAssign s.entries (CfgNodeDefsKey kind)
              (.nodeDefs nds', s.nextCas)
            nextCas := s.nextCas + 1
            setCount := s.setCount + 1 }, g + 1) ∧
      (nds'.NodeDefs.find? (fun p => p.1 = mgr.uuid)).map Prod.snd =
        some (managerNodeDef mgr) := by
  unfold prevNodeDef at hne
  rcases hlk : simpleCfgLookup s (CfgNodeDefsKey kind) with _ | ⟨v, c⟩
  · have hget : simpleCfg.get (CfgNodeDefsKey kind) 0 s = (.ok (none, 0), s) := by
      simp only [simpleCfg]
      rw [hlk]
    have hset : simpleCfg.set (CfgNodeDefsKey kind)
        (.nodeDefs { UUID := u g, ImplVersion := CfgGetVersion s
                     NodeDefs := mapAssign (NewNodeDefs mgr.version).NodeDefs
                       mgr.uuid (managerNodeDef mgr) }) 0 s =
        (.ok s.nextCas,
          { entries := mapAssign s.entries (CfgNodeDefsKey kind)
              (.nodeDefs { UUID := u g, ImplVersion := CfgGetVersion s
                           NodeDefs := mapAssign (NewNodeDefs mgr.version).NodeDefs
                             mgr.uuid (managerNodeDef mgr) }, s.nextCas)
            nextCas := s.nextCas + 1
            setCount := s.setCount + 1 }) := by
      simp only [simpleCfg]
      rw [if_pos (by rw [hlk])]
    refine ⟨{ UUID := u g, ImplVersion := CfgGetVersion s
              NodeDefs := mapAssign (NewNodeDefs mgr.version).NodeDefs
                mgr.uuid (managerNodeDef mgr) }, ?_, ?_⟩
    · simp only [saveNodeDefStep, cfgGetNodeDefs, hget, Option.getD_none]
      rw [if_neg (by
        rintro ⟨hprev, -⟩
        simp [NewNodeDefs, List.find?] at hprev)]
      simp only [hset]
    · simp only
      rw [find?_mapAssign]
      rfl
  · rcases v with vs | nds
    · exact absurd hlk (hshape vs c)
    · rw [hlk] at hne
      have hget : simpleCfg.get (CfgNodeDefsKey kind) 0 s =
          (.ok (some (.nodeDefs nds), c), s) := by
        simp only [simpleCfg]
        rw [hlk]
      have hset : simpleCfg.set (CfgNodeDefsKey kind)
          (.nodeDefs { UUID := u g, ImplVersion := CfgGetVersion s
                       NodeDefs := mapAssign nds.NodeDefs
                         mgr.uuid (managerNodeDef mgr) }) c s =
          (.ok s.nextCas,
            { entries := mapAssign s.entries (CfgNodeDefsKey kind)
                (.nodeDefs { UUID := u g, ImplVersion := CfgGetVersion s
                             NodeDefs := mapAssign nds.NodeDefs
                               mgr.uuid (managerNodeDef mgr) }, s.nextCas)
              nextCas := s.nextCas + 1
              setCount := s.setCount + 1 }) := by
        simp only [simpleCfg]
        rw [if_pos (by rw [hlk])]
      refine ⟨{ UUID := u g, ImplVersion := CfgGetVersion s
                NodeDefs := mapAssign nds.NodeDefs
                  mgr.uuid (managerNodeDef mgr) }, ?_, ?_⟩
      · simp only [saveNodeDefStep, cfgGetNodeDefs, hget, Option.getD_some]
        rw [if_neg (by
          rintro ⟨hprev, -⟩
          exact hne hprev)]
        simp only [hset]
      · simp only
        rw [find?_mapAssign]
        rfl

/-- After a `SaveNodeDef` write, the stored NodeDef is the saved one. -/
theorem prevNodeDef_after_write (mgr : Manager) (kind : String)
    (s : SimpleCfgState) (nds' : NodeDefs)
    (hnds : (nds'.NodeDefs.find? (fun p => p.1 = mgr.uuid)).map Prod.snd =
      some (managerNodeDef mgr)) :
    prevNodeDef
      { entries := mapAssign s.entries (CfgNodeDefsKey kind)
          (.nodeDefs nds', s.nextCas)
        nextCas := s.nextCas + 1
        setCount := s.setCount + 1 } kind mgr.uuid =
      some (managerNodeDef mgr) := by
  unfold prevNodeDef simpleCfgLookup
  simp only
  rw [find?_mapAssign]
  simpa using hnds

/-- C5: `SaveNodeDef(kind, force=false)` performs no Cfg set when a
deep-equal NodeDef is already registered under this node's UUID; when
it is not, the call performs exactly one Cfg write, and an immediately
following `SaveNodeDef(kind, false)` with no state change is a complete
no-op — two consecutive calls produce exactly one Cfg write in total. -/
theorem saveNodeDef_single_write (mgr : Manager) (kind : String)
    (u u2 : Nat → String) (s : SimpleCfgState) (g g2 : Nat)
    (hshape : ∀ (str : String) (c : Nat),
      simpleCfgLookup s (CfgNodeDefsKey kind) ≠ some (.str str, c)) :
    (prevNodeDef s kind mgr.uuid = some (managerNodeDef mgr) →
      saveNodeDef mgr kind false u s g = (none, s, g)) ∧
    (prevNodeDef s kind mgr.uuid ≠ some (managerNodeDef mgr) →
      (saveNodeDef mgr kind false u s g).1 = none ∧
      (saveNodeDef mgr kind false u s g).2.1.setCount = s.setCount + 1 ∧
      saveNodeDef mgr kind false u2
          (saveNodeDef mgr kind false u s g).2.1 g2 =
        (none, (saveNodeDef mgr kind false u s g).2.1, g2)) := by
  constructor
  · intro h
    show saveNodeDefLoop mgr kind false u (99 + 1) (s, g) = _
    simp only [saveNodeDefLoop, saveNodeDefStep_skip mgr kind u s g h]
  · intro hne
    obtain ⟨nds', hstep, hnds⟩ := saveNodeDefStep_write mgr kind u s g hne hshape
    have hrun : saveNodeDef mgr kind false u s g =
        (none,
          { entries := mapAssign s.entries (CfgNodeDefsKey kind)
              (.nodeDefs nds', s.nextCas)
            nextCas := s.nextCas + 1
            setCount := s.setCount + 1 }, g + 1) := by
      show saveNodeDefLoop mgr kind false u (99 + 1) (s, g) = _
      simp only [saveNodeDefLoop, hstep]
    refine ⟨by rw [hrun], by rw [hrun], ?_⟩
    rw [hrun]
    show saveNodeDefLoop mgr kind false u2 (99 + 1) _ = _
    simp only [saveNodeDefLoop,
      saveNodeDefStep_skip mgr kind u2 _ g2
        (prevNodeDef_after_write mgr kind s nds' hnds)]

/-- C5 witness: on an empty Cfg, the first save writes once and the
second is a no-op. -/
theorem saveNodeDef_single_write_witness :
    (saveNodeDef { version := "5.5.0", uuid := "n1", bindHttp := "h:1" }
      "known" false (fun n => toString n) {} 0).2.1.setCount = 0 + 1 := by
  have h := saveNodeDef_single_write
    { version := "5.5.0", uuid := "n1", bindHttp := "h:1" } "known"
    (fun n => toString n) (fun n => toString n) {} 0 0
    (by intro str c h; cases h)
  exact (h.2 (by decide)).2.1

/-- Unverified files (read error or MD5 mismatch) are skipped. -/
theorem getStable_skip (unm : List Nat → Option PlanPIndexes) :
    ∀ (l rest : List (String × Option (List Nat))),
      (∀ g ∈ l, ∀ v, g.2 = some v →
        computeMD5 v ≠ suffixAfterLastDash g.1) →
      getStablePlanPIndexesRec unm (l ++ rest) =
        getStablePlanPIndexesRec unm rest := by
  intro l
  induction l with
  | nil => intro rest _; rfl
  | cons f l ih =>
      intro rest h
      rcases f with ⟨fname, content⟩
      rcases content with _ | val
      · simp only [List.cons_append, getStablePlanPIndexesRec]
        exact ih rest (fun g hg => h g (List.mem_cons_of_mem _ hg))
      · simp only [List.cons_append, getStablePlanPIndexesRec]
        rw [if_pos (h _ (List.mem_cons_self _ _) val rfl)]
        exact ih rest (fun g hg => h g (List.mem_cons_of_mem _ hg))

/-- C6: `GetStableLocalPlanPIndexes` walks the name-sorted directory
listing from newest to oldest and returns the decoded contents of the
first file whose content MD5 equals the hex suffix of its filename;
files whose body does not match the suffix (or cannot be read) are
skipped in favor of the next older file, and when no file verifies the
result is nil. -/
theorem getStableLocalPlanPIndexes_correct
    (unmarshal : List Nat → Option PlanPIndexes)
    (pre post : List (String × Option (List Nat)))
    (fname : String) (val : List Nat)
    (hver : computeMD5 val = suffixAfterLastDash fname)
    (hpost : ∀ g ∈ post, ∀ v, g.2 = some v →
      computeMD5 v ≠ suffixAfterLastDash g.1) :
    getStableLocalPlanPIndexes unmarshal
      (pre ++ (fname, some val) :: post) = unmarshal val ∧
    ∀ files : List (String × Option (List Nat)),
      (∀ g ∈ files, ∀ v, g.2 = some v →
        computeMD5 v ≠ suffixAfterLastDash g.1) →
      getStableLocalPlanPIndexes unmarshal files = none := by
  constructor
  · unfold getStableLocalPlanPIndexes
    rw [List.reverse_append, List.reverse_cons, List.append_assoc]
    rw [getStable_skip unmarshal post.reverse _
      (fun g hg => hpost g (List.mem_reverse.mp hg))]
    simp only [List.singleton_append, getStablePlanPIndexesRec]
    rw [if_neg (fun h => h hver)]
  · intro files hall
    unfold getStableLocalPlanPIndexes
    have h := getStable_skip unmarshal files.reverse []
      (fun g hg => hall g (List.mem_reverse.mp hg))
    simpa using h

set_option maxRecDepth 600000 in
/-- C6 witness: a newer file with a corrupted body (its name carries the
MD5 of different bytes) is skipped and the older verified file is
decoded and returned. -/
theorem getStableLocalPlanPIndexes_witness :
    getStableLocalPlanPIndexes
      (fun v => if v = [97, 98, 99] then some { UUID := "p" } else none)
      [("recoveryPlan-1-" ++ computeMD5 [97, 98, 99], some [97, 98, 99]),
       ("recoveryPlan-2-" ++ computeMD5 [1, 2, 3], some [104, 105])] =
      some { UUID := "p" } := by
  have h := (getStableLocalPlanPIndexes_correct
    (fun v => if v = [97, 98, 99] then some { UUID := "p" } else none)
    [] [("recoveryPlan-2-" ++ computeMD5 [1, 2, 3], some [104, 105])]
    ("recoveryPlan-1-" ++ computeMD5 [97, 98, 99]) [97, 98, 99]
    (by decide) (by
      intro g hg v hv
      simp only [List.mem_singleton] at hg
      subst hg
      injection hv with hv
      subst hv
      decide)).1
  simpa using h

/-- A node accepted by `nodeDoesPIndexes` carries its own UUID. -/
theorem nodeDoesPIndexes_uuid (nds : NodeDefs) (u : String) (nd : NodeDef)
    (h : nodeDoesPIndexes nds u = some nd) : nd.UUID = u := by
  unfold nodeDoesPIndexes at h
  split at h
  next nodeDef heq =>
    split at h
    next h1 =>
      split at h
      next => injection h with h; rw [← h]; exact h1
      next =>
        split at h
        next => injection h with h; rw [← h]; exact h1
        next => cases h
    next => cases h
  next => cases h

/-- One selector step either keeps the accumulator or adopts the
priority of a passing candidate. -/
theorem coverNodeStep_cases (selfUUID indexName indexUUID : String)
    (nodeDefs : NodeDefs) (pindexes : List (String × PIndex))
    (filter : PlanPIndexNode → Bool) (planPIndex : PlanPIndex)
    (acc : Option NodeDef × Int) (np : String × PlanPIndexNode) :
    coverNodeStep selfUUID indexName indexUUID nodeDefs pindexes filter
      planPIndex acc np = acc ∨
    ((coverNodeStep selfUUID indexName indexUUID nodeDefs pindexes filter
        planPIndex acc np).2 = np.2.Priority ∧
      (nodeDoesPIndexes nodeDefs np.1).isSome = true ∧
      filter np.2 = true) := by
  unfold coverNodeStep
  split
  next nodeDef heq =>
    split
    next hf =>
      split
      next =>
        split
        next => right; exact ⟨rfl, by rw [heq]; rfl, hf⟩
        next => left; rfl
      next =>
        split
        next =>
          split
          next => right; exact ⟨rfl, by rw [heq]; rfl, hf⟩
          next => left; rfl
        next => left; rfl
    next => left; rfl
  next => left; rfl

/-- The lowest priority tracked by the selector never goes below a
bound respected by all passing candidates. -/
theorem coverFold_bound (selfUUID indexName indexUUID : String)
    (nodeDefs : NodeDefs) (pindexes : List (String × PIndex))
    (filter : PlanPIndexNode → Bool) (planPIndex : PlanPIndex) (p : Int) :
    ∀ (l : List (String × PlanPIndexNode)) (acc : Option NodeDef × Int),
      p ≤ acc.2 →
      (∀ np ∈ l, (nodeDoesPIndexes nodeDefs np.1).isSome = true →
        filter np.2 = true → p ≤ np.2.Priority) →
      p ≤ (l.foldl (coverNodeStep selfUUID indexName indexUUID nodeDefs
        pindexes filter planPIndex) acc).2 := by
  intro l
  induction l with
  | nil => intro acc h _; exact h
  | cons np l ih =>
      intro acc hacc hall
      rw [List.foldl_cons]
      apply ih
      · rcases coverNodeStep_cases selfUUID indexName indexUUID nodeDefs
          pindexes filter planPIndex acc np with h | ⟨h2, hsome, hfil⟩
        · rw [h]; exact hacc
        · rw [h2]; exact hall np (List.mem_cons_self _ _) hsome hfil
      · intro np' h' hsome hfil
        exact hall np' (List.mem_cons_of_mem _ h') hsome hfil

/-- Once the local node (at the lowest priority) is the incumbent, no
later candidate with priority not below it displaces it. -/
theorem coverFold_keep (selfUUID indexName indexUUID : String)
    (nodeDefs : NodeDefs) (pindexes : List (String × PIndex))
    (filter : PlanPIndexNode → Bool) (planPIndex : PlanPIndex)
    (selfDef : NodeDef) (p : Int)
    (hself : nodeDoesPIndexes nodeDefs selfUUID = some selfDef) :
    ∀ (l : List (String × PlanPIndexNode)),
      (∀ np ∈ l, (nodeDoesPIndexes nodeDefs np.1).isSome = true →
        filter np.2 = true → p ≤ np.2.Priority) →
      l.foldl (coverNodeStep selfUUID indexName indexUUID nodeDefs
        pindexes filter planPIndex) (some selfDef, p) = (some selfDef, p) := by
  intro l
  induction l with
  | nil => intro _; rfl
  | cons np l ih =>
      intro hall
      rw [List.foldl_cons]
      have hstep : coverNodeStep selfUUID indexName indexUUID nodeDefs
          pindexes filter planPIndex (some selfDef, p) np =
          (some selfDef, p) := by
        unfold coverNodeStep
        split
        next nodeDef heq =>
          split
          next hf =>
            have hp : p ≤ np.2.Priority :=
              hall np (List.mem_cons_self _ _) (by rw [heq]; rfl) hf
            split
            next hlt =>
              exfalso
              simp only at hlt
              omega
            next =>
              split
              next heq2 =>
                split
                next hloc =>
                  have hud : nodeDoesPIndexes nodeDefs selfUUID =
                      some nodeDef := by
                    rw [← hloc.1]; exact heq
                  have : nodeDef = selfDef := by
                    rw [hud] at hself
                    injection hself
                  rw [this]
                  simp only at heq2
                  rw [heq2]
                next => rfl
              next => rfl
          next => rfl
        next => rfl
      rw [hstep]
      exact ih (fun np' h' => hall np' (List.mem_cons_of_mem _ h'))

/-- Processing the local node's own entry makes it the incumbent when
it passes the filter, has the pindex opened locally, and no better
priority was seen. -/
theorem coverNodeStep_local (selfUUID indexName indexUUID : String)
    (nodeDefs : NodeDefs) (pindexes : List (String × PIndex))
    (filter : PlanPIndexNode → Bool) (planPIndex : PlanPIndex)
    (selfDef : NodeDef) (ln : PlanPIndexNode)
    (hself : nodeDoesPIndexes nodeDefs selfUUID = some selfDef)
    (hok : nodeLocalOKFor pindexes indexName indexUUID planPIndex.Name = true)
    (hfil : filter ln = true)
    (acc : Option NodeDef × Int) (hacc : ln.Priority ≤ acc.2) :
    coverNodeStep selfUUID indexName indexUUID nodeDefs pindexes filter
      planPIndex acc (selfUUID, ln) = (some selfDef, ln.Priority) := by
  unfold coverNodeStep
  simp only [hself, hfil, if_true]
  rcases lt_or_eq_of_le hacc with hlt | heq
  · rw [if_pos hlt, if_pos (Or.inr ⟨by trivial, by trivial, hok⟩)]
  · rw [if_neg (by omega), if_pos heq, if_pos ⟨by trivial, by trivial, hok⟩]

/-- C7: when the local node is assigned to a partition at the (equal)
lowest priority among passing nodes and currently has the pindex opened
with matching index name and UUID (or the requested UUID is empty, as
captured by `nodeLocalOKFor`), the covering selector places the
partition in `localPIndexes` and not in `remotePlanPIndexes`. -/
theorem covering_local_preference
    (selfUUID indexName indexUUID : String) (nodeDefs : NodeDefs)
    (pindexes : List (String × PIndex)) (filter : PlanPIndexNode → Bool)
    (planPIndex : PlanPIndex) (ln : PlanPIndexNode) (selfDef : NodeDef)
    (lp : PIndex)
    (hmem : (selfUUID, ln) ∈ planPIndex.Nodes)
    (hfil : filter ln = true)
    (hself : nodeDoesPIndexes nodeDefs selfUUID = some selfDef)
    (hok : nodeLocalOKFor pindexes indexName indexUUID planPIndex.Name = true)
    (hlp : (pindexes.find? (fun q => q.1 = planPIndex.Name)).map Prod.snd =
      some lp)
    (hbound : ln.Priority ≤ maxInt64)
    (hlow : ∀ np ∈ planPIndex.Nodes,
      (nodeDoesPIndexes nodeDefs np.1).isSome = true →
      filter np.2 = true → ln.Priority ≤ np.2.Priority) :
    coveringPIndexesEx selfUUID indexName indexUUID nodeDefs pindexes filter
      [planPIndex] = ([some lp], [], []) := by
  obtain ⟨pre, post, hsplit⟩ := List.append_of_mem hmem
  have hsel : coverSelectNode selfUUID indexName indexUUID nodeDefs pindexes
      filter planPIndex = some selfDef := by
    unfold coverSelectNode
    rw [hsplit, List.foldl_append, List.foldl_cons]
    have hpreb : ln.Priority ≤ (pre.foldl (coverNodeStep selfUUID indexName
        indexUUID nodeDefs pindexes filter planPIndex) (none, maxInt64)).2 :=
      coverFold_bound selfUUID indexName indexUUID nodeDefs pindexes filter
        planPIndex ln.Priority pre (none, maxInt64) hbound
        (fun np h => hlow np (by rw [hsplit]; exact List.mem_append_left _ h))
    rw [coverNodeStep_local selfUUID indexName indexUUID nodeDefs pindexes
      filter planPIndex selfDef ln hself hok hfil _ hpreb]
    rw [coverFold_keep selfUUID indexName indexUUID nodeDefs pindexes filter
      planPIndex selfDef ln.Priority hself post
      (fun np h => hlow np (by
        rw [hsplit]
        exact List.mem_append_right _ (List.mem_cons_of_mem _ h)))]
  unfold coveringPIndexesEx
  simp only [List.foldl_cons, List.foldl_nil, hsel]
  have huuid : selfDef.UUID = selfUUID := nodeDoesPIndexes_uuid _ _ _ hself
  rw [if_pos huuid, hlp]
  simp

/-- C7 witness: two nodes at priority 0 for a partition; the local node
owns the pindex with matching identity; the partition lands in
`localPIndexes`. -/
theorem covering_local_preference_witness :
    coveringPIndexesEx "self" "idx" "u"
      { NodeDefs := [("self", { UUID := "self" }),
                     ("other", { UUID := "other" })] }
      [("ppi", { Name := "ppi", IndexName := "idx", IndexUUID := "u" })]
      (fun _ => true)
      [{ Name := "ppi",
         Nodes := [("other", { Priority := 0 }),
                   ("self", { Priority := 0 })] }] =
      ([some { Name := "ppi", IndexName := "idx", IndexUUID := "u" }],
        [], []) := by
  exact covering_local_preference "self" "idx" "u"
    { NodeDefs := [("self", { UUID := "self" }),
                   ("other", { UUID := "other" })] }
    [("ppi", { Name := "ppi", IndexName := "idx", IndexUUID := "u" })]
    (fun _ => true)
    { Name := "ppi",
      Nodes := [("other", { Priority := 0 }), ("self", { Priority := 0 })] }
    { Priority := 0 } { UUID := "self" }
    { Name := "ppi", IndexName := "idx", IndexUUID := "u" }
    (by decide) rfl (by decide) (by decide) (by decide) (by decide)
    (by decide)

theorem lookupCount_mapAssign (m : List (String × Nat)) (k : String)
    (n : Nat) : lookupCount (mapAssign m k n) k = n := by
  unfold lookupCount
  rw [find?_mapAssign]
  rfl

/-- C4: with `StatsSampleErrorThreshold = 3`, the monitor loop keeps a
per-node consecutive-error counter: two consecutive error samples from
a node produce no action (the rebalance keeps running), the third
consecutive error sample produces an error `RebalanceProgress` event on
the progress channel followed by `Stop()`; and a successfully decoded
stats sample resets the node's counter to zero. -/
theorem runMonitor_error_threshold (st : MonitorState) (u : String)
    (e1 e2 e3 : String) (k1 k2 k3 : String) (d1 d2 d3 : MonitorData)
    (h0 : lookupCount st.errMap u = 0) :
    (runMonitorSamples 3 st
      [⟨k1, u, some e1, d1⟩, ⟨k2, u, some e2, d2⟩]).2 = [] ∧
    (runMonitorSamples 3 st
      [⟨k1, u, some e1, d1⟩, ⟨k2, u, some e2, d2⟩,
       ⟨k3, u, some e3, d3⟩]).2 = [.progressError e3, .stop] ∧
    ∀ (st' : MonitorState) (m : List (String × List (String × UUIDSeq))),
      lookupCount
        (runMonitorSample 3 st'
          ⟨statsSampleKind, u, none, .stats m⟩).1.errMap u = 0 := by
  have h1 : runMonitorSample 3 st ⟨k1, u, some e1, d1⟩ =
      ({ st with errMap := mapAssign st.errMap u 1 }, []) := by
    unfold runMonitorSample
    simp [h0]
  have hc1 : lookupCount (mapAssign st.errMap u 1) u = 1 :=
    lookupCount_mapAssign _ _ _
  have h2 : runMonitorSample 3 { st with errMap := mapAssign st.errMap u 1 }
      ⟨k2, u, some e2, d2⟩ =
      ({ st with errMap := mapAssign (mapAssign st.errMap u 1) u 2 }, []) := by
    unfold runMonitorSample
    simp [hc1]
  have hc2 : lookupCount (mapAssign (mapAssign st.errMap u 1) u 2) u = 2 :=
    lookupCount_mapAssign _ _ _
  have h3 : runMonitorSample 3
      { st with errMap := mapAssign (mapAssign st.errMap u 1) u 2 }
      ⟨k3, u, some e3, d3⟩ =
      ({ st with errMap :=
          mapAssign (mapAssign (mapAssign st.errMap u 1) u 2) u 3 },
        [.progressError e3, .stop]) := by
    unfold runMonitorSample
    simp [hc2]
  refine ⟨?_, ?_, ?_⟩
  · simp [runMonitorSamples, h1, h2]
  · simp [runMonitorSamples, h1, h2, h3]
  · intro st' m
    unfold runMonitorSample
    simp [lookupCount_mapAssign]

/-- C4 witness: the three-consecutive-errors scenario at a concrete
empty monitor state. -/
theorem runMonitor_error_threshold_witness :
    (runMonitorSamples 3 {} [⟨"s", "U", some "boom1", .noData⟩,
      ⟨"s", "U", some "boom2", .noData⟩]).2 = [] ∧
    (runMonitorSamples 3 {} [⟨"s", "U", some "boom1", .noData⟩,
      ⟨"s", "U", some "boom2", .noData⟩,
      ⟨"s", "U", some "boom3", .noData⟩]).2 =
      [.progressError "boom3", .stop] := by
  have h := runMonitor_error_threshold {} "U" "boom1" "boom2" "boom3"
    "s" "s" "s" .noData .noData .noData (by decide)
  exact ⟨h.1, h.2.1⟩

/-- Helper: case analysis of the one-pair expansion. -/
theorem createPindexMovesOne_stateOps (apd : Bool) (name st op : String) :
    (createPindexMovesOne apd name st op).stateOps =
      (if apd = false ∧ st = "primary" ∧ op = "add"
       then [⟨"replica", "add"⟩, ⟨"primary", "promote"⟩]
       else if st = "primary" ∧ op = "promote"
       then [⟨"replica", "promote"⟩, ⟨"primary", "promote"⟩]
       else [⟨st, op⟩]) := by
  rcases apd with _ | _ <;>
    by_cases h1 : st = "primary" <;>
    by_cases h2 : op = "add" <;>
    by_cases h3 : op = "promote" <;>
    simp_all [createPindexMovesOne]

/-- C1: for every incoming `(state, op)` pair handed to the rebalancer's
move-expansion for partition `i`: `("primary","add")` with
`AddPrimaryDirectly=false` expands to exactly
`[("replica","add"), ("primary","promote")]`; `("primary","promote")`
expands to exactly `[("replica","promote"), ("primary","promote")]`;
every other pair expands to the single step `(state, op)`. -/
theorem rebalance_move_expansion (apd : Bool) (pindexes states ops : List String)
    (i : Nat) (hi : i < pindexes.length) :
    ((createPindexesMoves apd pindexes states ops).getD i default).stateOps =
      (if apd = false ∧ states.getD i "" = "primary" ∧ ops.getD i "" = "add"
       then [⟨"replica", "add"⟩, ⟨"primary", "promote"⟩]
       else if states.getD i "" = "primary" ∧ ops.getD i "" = "promote"
       then [⟨"replica", "promote"⟩, ⟨"primary", "promote"⟩]
       else [⟨states.getD i "", ops.getD i ""⟩]) := by
  have hmap : (createPindexesMoves apd pindexes states ops).getD i default =
      createPindexMovesOne apd (pindexes.getD i "") (states.getD i "")
        (ops.getD i "") := by
    rw [createPindexesMoves, List.getD_eq_getElem?_getD, List.getElem?_map,
      List.getElem?_range hi]
    rfl
  rw [hmap]
  exact createPindexMovesOne_stateOps apd _ _ _

/-- C1 witness: concrete evaluation of the three expansion cases. -/
theorem rebalance_move_expansion_witness :
    ((createPindexesMoves false ["p0", "p1", "p2"]
        ["primary", "primary", "replica"] ["add", "promote", "add"]).getD 0
        default).stateOps =
      [⟨"replica", "add"⟩, ⟨"primary", "promote"⟩] := by
  have h := rebalance_move_expansion false ["p0", "p1", "p2"]
    ["primary", "primary", "replica"] ["add", "promote", "add"] 0 (by decide)
  simpa using h

/-- C10: the `retry` helper returns exactly the value and error produced by
the first invocation of `f`, for every `attempts` and every (stateful) `f`,
even when a later attempt would have succeeded — the recursive attempts'
results are discarded. -/
theorem retry_returns_first_attempt {σ : Type} (attempts : Nat)
    (f : σ → (Nat × Option String) × σ) (s : σ) :
    (retry attempts f s).1 = (f s).1 := by
  cases attempts with
  | zero => rfl
  | succ a =>
      by_cases h : (f s).1.2 = none <;> simp [retry, h]

end Cbgt
